import Mathlib

/-!
Verification of the Wi-Fi forensics classification pipeline
(`wf/analysis/classifier.py`, `wf/utils/geo.py`, `wf/storage/dao.py`).

The pipeline is embedded shallowly over exact rational arithmetic.
The haversine metric is transcendental, so all pipeline functions take the
point-to-point distance function as an explicit parameter `dist`; the
classifier's control flow never depends on which metric is supplied.
Timestamps are integers, coordinates / RSSI / distances are rationals, and
the RSSI-to-weight map `10 ** (rssi / 10)` is likewise passed as a
parameter `wfun` (its exact value is irrational; only its algebraic
properties matter to the claims).  Fallible Python code (ZeroDivisionError,
and the unbounded Weiszfeld loop) is modelled with `Except` and fuel.
-/

namespace WF

/-- Point-to-point distance function, standing for `haversine` in
`wf/utils/geo.py` (which takes two `(lat, lon)` pairs and returns metres). -/
abbrev Dist := ℚ × ℚ → ℚ × ℚ → ℚ

/-- `Obs` from `wf/analysis/types.py`: one packet observation. -/
structure Obs where
  mac : String
  ts : Int
  lat : ℚ
  lon : ℚ
  rssi : ℚ
deriving DecidableEq, Repr, Inhabited

/-- `Win` from `wf/analysis/types.py`: a visibility window. -/
structure Win where
  mac : String
  ts_start : Int
  ts_end : Int
  points : List Obs
deriving DecidableEq, Repr, Inhabited

/-- `MobileTrackPoint` from `wf/analysis/types.py`. -/
structure MobileTrackPoint where
  mac : String
  ts : Int
  lat : ℚ
  lon : ℚ
deriving DecidableEq, Repr, Inhabited

/-- One row of the `static_ap` table, as produced by
`ClassifierPipeline._aggregate_static` (a 7-tuple in the source). -/
structure StaticRow where
  mac : String
  lat_mean : ℚ
  lon_mean : ℚ
  loc_error_m : ℚ
  first_seen : Int
  last_seen : Int
  n_obs : Nat
deriving DecidableEq, Repr, Inhabited

/-- `ClassifierConfig` from `wf/analysis/config.py` (driving defaults). -/
structure ClassifierConfig where
  t_max_gap : Int := 120
  min_window_len : Nat := 1
  r_stationary : ℚ := 350
  mobile_decim_d : ℚ := 100
  mobile_decim_t : Int := 30
  max_speed_ms : ℚ := 200000 / 3600
deriving DecidableEq, Repr, Inhabited

/-- `ClassifierConfig.driving`: preset for vehicle mode (default thresholds). -/
def ClassifierConfig.driving : ClassifierConfig := {}

/-- `ClassifierConfig.walking`: preset for pedestrian mode. -/
def ClassifierConfig.walking : ClassifierConfig :=
  { t_max_gap := 60, min_window_len := 1, r_stationary := 50,
    mobile_decim_d := 10, mobile_decim_t := 5, max_speed_ms := 8000 / 3600 }

/-- The Weiszfeld convergence tolerance `eps = 1e-6` of `geometric_median`. -/
def qeps : ℚ := 1 / 1000000

/-- The per-point distance clamp `1e-12` of `geometric_median`. -/
def qclamp : ℚ := 1 / 1000000000000

/-! ### Stable sort by timestamp

Python's `sorted(points, key=lambda o: o.ts)` is a stable sort by `ts`;
we embed it as stable insertion sort (any two stable sorts by the same
key produce the same list). -/

/-- Insert an observation into a ts-sorted list, before the first
element with a strictly larger-or-equal position (stable). -/
def insertByTs (o : Obs) : List Obs → List Obs
  | [] => [o]
  | x :: xs => if o.ts ≤ x.ts then o :: x :: xs else x :: insertByTs o xs

/-- Stable sort by `ts`, embedding Python's `sorted(…, key=lambda o: o.ts)`. -/
def sortByTs (l : List Obs) : List Obs := l.foldr insertByTs []

/-! ### Grouping by MAC

`defaultdict` grouping iterates keys in first-occurrence order; `firstKeys`
returns the distinct keys of a list in that order, and grouping a list by a
key is `filter`. -/

/-- Distinct elements of a list in first-occurrence order (the iteration
order of the Python `dict` keys). -/
def firstKeys : List String → List String
  | [] => []
  | m :: ms => m :: firstKeys (ms.filter (fun k => decide (k ≠ m)))
termination_by l => l.length
decreasing_by
  exact Nat.lt_succ_of_le (List.length_filter_le _ _)

/-! ### Stage 2: windowizer (`ClassifierPipeline._windowize`) -/

/-- The inner loop of `_windowize`: walk the ts-sorted tail, carrying the
previous observation `prev` and the current window buffer `cur`
(`cur_pts` in the source, always ending in `prev`).  On a gap
`≥ t_max_gap` the buffer is emitted iff it has at least `min_window_len`
points and a fresh buffer is started at the current observation. -/
def winWalk (tmax : Int) (minLen : Nat) : Obs → List Obs → List Obs → List (List Obs)
  | _, cur, [] => if minLen ≤ cur.length then [cur] else []
  | prev, cur, curr :: rest =>
    if tmax ≤ curr.ts - prev.ts then
      (if minLen ≤ cur.length then [cur] else []) ++ winWalk tmax minLen curr [curr] rest
    else
      winWalk tmax minLen curr (cur ++ [curr]) rest

/-- `cur_pts[0].ts` of a buffer (0 for the empty buffer, which the source
never emits). -/
def headTs (l : List Obs) : Int := ((l.head?).map (fun o => o.ts)).getD 0

/-- `cur_pts[-1].ts` of a buffer (0 for the empty buffer). -/
def lastTs (l : List Obs) : Int := ((l.getLast?).map (fun o => o.ts)).getD 0

/-- Wrap an emitted buffer as a `Win`
(`Win(mac, cur_pts[0].ts, cur_pts[-1].ts, list(cur_pts))`). -/
def toWin (mac : String) (pts : List Obs) : Win :=
  { mac := mac, ts_start := headTs pts, ts_end := lastTs pts, points := pts }

/-- Windowize the observations of a single MAC: sort by `ts`, then run the
gap walk starting from the first point (`cur_pts = [pts[0]]`). -/
def windowizeMac (cfg : ClassifierConfig) (mac : String) (ptsIn : List Obs) : List Win :=
  match sortByTs ptsIn with
  | [] => []
  | p :: rest => (winWalk cfg.t_max_gap cfg.min_window_len p [p] rest).map (toWin mac)

/-- `ClassifierPipeline._windowize`: group by MAC (first-occurrence order),
then windowize each MAC's observations. -/
def windowize (cfg : ClassifierConfig) (obs : List Obs) : List Win :=
  (firstKeys (obs.map (fun o => o.mac))).flatMap
    (fun m => windowizeMac cfg m (obs.filter (fun o => decide (o.mac = m))))

/-! ### Stage 3: stationary splitter (`ClassifierPipeline._split_stationary`) -/

/-- All index pairs `i < j` of a list, in the order of the source's double
loop `for i … for j in range(i+1, …)`. -/
def pairsAfter {α : Type} : List α → List (α × α)
  | [] => []
  | a :: rest => rest.map (fun b => (a, b)) ++ pairsAfter rest

/-- The window diameter `maxd`: running maximum of the pairwise distances,
starting from `0.0` (so a single-point window has diameter 0). -/
def winDiameter (dist : Dist) (w : Win) : ℚ :=
  (pairsAfter w.points).foldl
    (fun m ab => max m (dist (ab.1.lat, ab.1.lon) (ab.2.lat, ab.2.lon))) 0

/-- `_split_stationary`: append each window to the stationary list iff its
diameter is `≤ r_stationary`, else to the mobile list. -/
def splitStationary (cfg : ClassifierConfig) (dist : Dist) (wins : List Win) :
    List Win × List Win :=
  wins.foldl
    (fun acc w =>
      if winDiameter dist w ≤ cfg.r_stationary then (acc.1 ++ [w], acc.2)
      else (acc.1, acc.2 ++ [w]))
    ([], [])

/-! ### Stage 4: static aggregation (`_aggregate_static`, `geometric_median`)

Python raises `ZeroDivisionError` on float division by zero; fallible
computations therefore return `Except`.  The `while True` loop of
`geometric_median` has no bound in the source; it is embedded with a fuel
parameter, `nonConvergence` marking a run that is still looping when the
fuel runs out. -/

/-- The two failure modes of the aggregation stage: a Python
`ZeroDivisionError`, or the Weiszfeld loop still running at the given fuel. -/
inductive AggErr where
  | zeroDivision
  | nonConvergence
deriving DecidableEq, Repr

/-- Sequence a fallible computation over a list, stopping at the first
error (the behaviour of a Python exception escaping a loop). -/
def collectE {α β ε : Type} (f : α → Except ε β) : List α → Except ε (List β)
  | [] => .ok []
  | a :: as =>
    match f a with
    | .error e => .error e
    | .ok b =>
      match collectE f as with
      | .error e => .error e
      | .ok bs => .ok (b :: bs)

/-- Per-window summary built in pass 1 of `_aggregate_static`:
weighted centroid, total weight, time span and observation count. -/
structure WinSummary where
  center : ℚ × ℚ
  totW : ℚ
  ts0 : Int
  ts1 : Int
  n : Nat
deriving DecidableEq, Repr

/-- Total RSSI weight of a window: `sum(10 ** (p.rssi / 10) for p …)`,
with the weight map abstracted as `wfun`. -/
def winTotW (wfun : ℚ → ℚ) (w : Win) : ℚ :=
  (w.points.map (fun p => wfun p.rssi)).sum

/-- Pass 1 of `_aggregate_static` for one window: weights, total weight and
weighted centroid.  A zero total weight raises `ZeroDivisionError` at
`lat_c = … / tot_w`. -/
def summarizeWin (wfun : ℚ → ℚ) (w : Win) : Except AggErr WinSummary :=
  if winTotW wfun w = 0 then .error .zeroDivision
  else
    .ok { center :=
            ((((w.points.map (fun p => wfun p.rssi)).zip w.points).map
                (fun wp => wp.1 * wp.2.lat)).sum / winTotW wfun w,
             (((w.points.map (fun p => wfun p.rssi)).zip w.points).map
                (fun wp => wp.1 * wp.2.lon)).sum / winTotW wfun w),
          totW := winTotW wfun w,
          ts0 := w.ts_start,
          ts1 := w.ts_end,
          n := w.points.length }

/-- Denominator `denom = Σ wᵢ / max(dᵢ, 1e-12)` of one Weiszfeld update. -/
def gmDenom (dist : Dist) (pts : List (ℚ × ℚ)) (ws : List ℚ) (x : ℚ × ℚ) : ℚ :=
  ((pts.zip ws).map (fun pw => pw.2 / max (dist x pw.1) qclamp)).sum

/-- One Weiszfeld update `(Σ invᵢ·latᵢ / denom, Σ invᵢ·lonᵢ / denom)`. -/
def gmNext (dist : Dist) (pts : List (ℚ × ℚ)) (ws : List ℚ) (x : ℚ × ℚ) : ℚ × ℚ :=
  (((pts.zip ws).map (fun pw => pw.2 / max (dist x pw.1) qclamp * pw.1.1)).sum /
      gmDenom dist pts ws x,
   ((pts.zip ws).map (fun pw => pw.2 / max (dist x pw.1) qclamp * pw.1.2)).sum /
      gmDenom dist pts ws x)

/-- The `while True` loop of `geometric_median`, fuelled.  A zero
denominator raises `ZeroDivisionError`; the loop returns the new iterate
when the step falls below `eps`, and otherwise keeps iterating — the
source has no other exit. -/
def gmLoop (dist : Dist) (pts : List (ℚ × ℚ)) (ws : List ℚ) :
    Nat → ℚ × ℚ → Except AggErr (ℚ × ℚ)
  | 0, _ => .error .nonConvergence
  | n + 1, x =>
    if gmDenom dist pts ws x = 0 then .error .zeroDivision
    else
      if dist x (gmNext dist pts ws x) < qeps then .ok (gmNext dist pts ws x)
      else gmLoop dist pts ws n (gmNext dist pts ws x)

/-- The weighted centroid `(x_lat, x_lon)` at which `geometric_median`
starts its iteration. -/
def gmStart (pts : List (ℚ × ℚ)) (ws : List ℚ) : ℚ × ℚ :=
  (((pts.zip ws).map (fun pw => pw.2 * pw.1.1)).sum / ws.sum,
   ((pts.zip ws).map (fun pw => pw.2 * pw.1.2)).sum / ws.sum)

/-- `geometric_median` from `wf/utils/geo.py`: start at the weighted
centroid (`ZeroDivisionError` if the weights sum to zero) and run the
Weiszfeld loop. -/
def geometricMedian (dist : Dist) (fuel : Nat) (pts : List (ℚ × ℚ)) (ws : List ℚ) :
    Except AggErr (ℚ × ℚ) :=
  if ws.sum = 0 then .error .zeroDivision
  else gmLoop dist pts ws fuel (gmStart pts ws)

/-- Python `min` over a non-empty integer list (`min(ts0_by_mac[mac])`). -/
def minListI : List Int → Int
  | [] => 0
  | x :: xs => xs.foldl min x

/-- Python `max` over a non-empty integer list (`max(ts1_by_mac[mac])`). -/
def maxListI : List Int → Int
  | [] => 0
  | x :: xs => xs.foldl max x

/-- Pass 2 of `_aggregate_static` for one MAC, over its window summaries:
geometric median of the window centroids weighted by the window total
weights, weighted mean distance as `loc_error_m`, and the coverage
aggregates. -/
def aggMacRow (dist : Dist) (fuel : Nat) (m : String) (ss : List WinSummary) :
    Except AggErr StaticRow :=
  match geometricMedian dist fuel (ss.map (fun s => s.center)) (ss.map (fun s => s.totW)) with
  | .error e => .error e
  | .ok med =>
    .ok { mac := m,
          lat_mean := med.1,
          lon_mean := med.2,
          loc_error_m :=
            (((ss.map (fun s => s.totW)).zip (ss.map (fun s => dist med s.center))).map
                (fun we => we.1 * we.2)).sum / (ss.map (fun s => s.totW)).sum,
          first_seen := minListI (ss.map (fun s => s.ts0)),
          last_seen := maxListI (ss.map (fun s => s.ts1)),
          n_obs := (ss.map (fun s => s.n)).sum }

/-- `ClassifierPipeline._aggregate_static`: pass 1 summarises every
stationary window (keyed by its MAC); pass 2 emits one row per MAC in
first-occurrence order. -/
def aggregateStatic (dist : Dist) (wfun : ℚ → ℚ) (fuel : Nat) (statWins : List Win) :
    Except AggErr (List StaticRow) :=
  match collectE (fun w => (summarizeWin wfun w).map (fun s => (w.mac, s))) statWins with
  | .error e => .error e
  | .ok sums =>
    collectE
      (fun m => aggMacRow dist fuel m
        ((sums.filter (fun s => decide (s.1 = m))).map (fun s => s.2)))
      (firstKeys (statWins.map (fun w => w.mac)))

/-! ### Stage 5: mobile decimation (`_decimate_mobile`, `_decimate_track`) -/

/-- The loop of `_decimate_track`: `last` is the last emitted point; a
candidate is considered only if it moved `≥ mobile_decim_d` or is
`≥ mobile_decim_t` seconds later, and is then emitted iff its implied
speed `d / max(dt, 1)` does not exceed `max_speed_ms`. -/
def decimateLoop (cfg : ClassifierConfig) (dist : Dist) :
    Obs → List Obs → List MobileTrackPoint
  | _, [] => []
  | last, curr :: rest =>
    if cfg.mobile_decim_d ≤ dist (last.lat, last.lon) (curr.lat, curr.lon) ∨
        cfg.mobile_decim_t ≤ curr.ts - last.ts then
      if dist (last.lat, last.lon) (curr.lat, curr.lon) / ((max (curr.ts - last.ts) 1 : Int) : ℚ) ≤
          cfg.max_speed_ms then
        ⟨curr.mac, curr.ts, curr.lat, curr.lon⟩ :: decimateLoop cfg dist curr rest
      else decimateLoop cfg dist last rest
    else decimateLoop cfg dist last rest

/-- `_decimate_track`: the first point is always emitted; the rest go
through the keep-condition / speed gate loop. -/
def decimateTrack (cfg : ClassifierConfig) (dist : Dist) : List Obs → List MobileTrackPoint
  | [] => []
  | p :: rest => ⟨p.mac, p.ts, p.lat, p.lon⟩ :: decimateLoop cfg dist p rest

/-- The per-MAC part of `_decimate_mobile`: concatenate the MAC's window
points (in window order), sort by `ts`, decimate, and drop the whole
track when fewer than 2 points survive. -/
def macTrack (cfg : ClassifierConfig) (dist : Dist) (wins : List Win) (m : String) :
    List MobileTrackPoint :=
  if 2 ≤ (decimateTrack cfg dist
      (sortByTs ((wins.filter (fun w => decide (w.mac = m))).flatMap (fun w => w.points)))).length
  then decimateTrack cfg dist
      (sortByTs ((wins.filter (fun w => decide (w.mac = m))).flatMap (fun w => w.points)))
  else []

/-- `ClassifierPipeline._decimate_mobile`: group the mobile windows by MAC
(first-occurrence order) and emit each qualifying decimated track. -/
def decimateMobile (cfg : ClassifierConfig) (dist : Dist) (mobWins : List Win) :
    List MobileTrackPoint :=
  (firstKeys (mobWins.map (fun w => w.mac))).flatMap (macTrack cfg dist mobWins)

/-! ### Stage 6: writer (`_write_results`, `DAO`)

The derived tables are modelled as lists of rows.  Each DAO method runs in
its own SQLite transaction (`with self.conn:` in the source), so the
writer is a sequence of three transactions; `applyTxs` runs the first `k`
of them, modelling a failure at any transaction boundary. -/

/-- State of the two derived tables. -/
structure DBState where
  static_ap : List StaticRow
  mobile_track : List MobileTrackPoint
deriving DecidableEq, Repr

/-- `INSERT … ON CONFLICT(mac) DO UPDATE` into `static_ap`: replace the
row with the same `mac` if present, else append. -/
def upsertStatic (tbl : List StaticRow) (r : StaticRow) : List StaticRow :=
  if tbl.any (fun t => decide (t.mac = r.mac)) then
    tbl.map (fun t => if t.mac = r.mac then r else t)
  else tbl ++ [r]

/-- `INSERT OR REPLACE INTO mobile_track` keyed by `(mac, ts)`: replace
the row with the same key if present, else append. -/
def upsertMobile (tbl : List MobileTrackPoint) (r : MobileTrackPoint) :
    List MobileTrackPoint :=
  if tbl.any (fun t => decide (t.mac = r.mac ∧ t.ts = r.ts)) then
    tbl.map (fun t => if t.mac = r.mac ∧ t.ts = r.ts then r else t)
  else tbl ++ [r]

/-- `DAO.recreate_classification_tables`: one transaction dropping and
re-creating both derived tables (they end up empty). -/
def recreateTables (_s : DBState) : DBState := ⟨[], []⟩

/-- `DAO.add_static_ap_bulk`: one transaction upserting the static rows. -/
def addStaticBulk (rows : List StaticRow) (s : DBState) : DBState :=
  { s with static_ap := rows.foldl upsertStatic s.static_ap }

/-- `DAO.add_mobile_track_bulk`: one transaction upserting the track points. -/
def addMobileBulk (rows : List MobileTrackPoint) (s : DBState) : DBState :=
  { s with mobile_track := rows.foldl upsertMobile s.mobile_track }

/-- `ClassifierPipeline._write_results`: the three DAO transactions it
issues, in order. -/
def writerTxs (static : List StaticRow) (mobile : List MobileTrackPoint) :
    List (DBState → DBState) :=
  [recreateTables, addStaticBulk static, addMobileBulk mobile]

/-- Run the first `k` transactions of a sequence: the state a reader (or a
crash) observes at the `k`-th transaction boundary. -/
def applyTxs (txs : List (DBState → DBState)) (k : Nat) (s : DBState) : DBState :=
  (txs.take k).foldl (fun st f => f st) s

/-! ### Pipeline composition (the in-memory part of `ClassifierPipeline.run`) -/

/-- Stages 2–4 composed: the static rows the run would write. -/
def runStatic (cfg : ClassifierConfig) (dist : Dist) (wfun : ℚ → ℚ) (fuel : Nat)
    (obs : List Obs) : Except AggErr (List StaticRow) :=
  aggregateStatic dist wfun fuel (splitStationary cfg dist (windowize cfg obs)).1

/-- Stages 2, 3 and 5 composed: the mobile track points the run would write. -/
def runMobile (cfg : ClassifierConfig) (dist : Dist) (obs : List Obs) :
    List MobileTrackPoint :=
  decimateMobile cfg dist (splitStationary cfg dist (windowize cfg obs)).2

/-- Modelled from the spec: the iteration-capped Weiszfeld loop §4.4/§7
describes — stop when the step is `< ε`, and after 1000 iterations fall
back to the final iterate.  The source (`geo.py geometric_median`) has no
such cap; this definition exists to compare the spec's words with the
source's behaviour. -/
def gmLoopCapped (dist : Dist) (pts : List (ℚ × ℚ)) (ws : List ℚ) :
    Nat → ℚ × ℚ → Option (ℚ × ℚ)
  | 0, x => some x
  | n + 1, x =>
    if gmDenom dist pts ws x = 0 then none
    else
      if dist x (gmNext dist pts ws x) < qeps then some (gmNext dist pts ws x)
      else gmLoopCapped dist pts ws n (gmNext dist pts ws x)

/-- A symmetric, zero-on-the-diagonal distance under which the Weiszfeld
iteration from the centroid of `[(0,0), (4,0)]` with weights `[1, 1]`
oscillates forever between `(2,0)` and `(1,0)`. -/
def distOsc : Dist := fun u v =>
  if u.1 = v.1 ∧ u.2 = v.2 then 0
  else if (u.1 = 2 ∧ v.1 = 4) ∨ (v.1 = 2 ∧ u.1 = 4) then 3
  else 1

/-! ## C1: writer transactionality -/

/-- The four writer steps are spread over three transactions; after `k`
committed transactions the table state is the run-start state, the
empty recreated tables, the static-only state, or the final state. -/
theorem C1_writer_tx_states (st : List StaticRow) (mo : List MobileTrackPoint)
    (s0 : DBState) (k : Nat) (hk : k ≤ 3) :
    applyTxs (writerTxs st mo) k s0 = s0 ∨
    applyTxs (writerTxs st mo) k s0 = ⟨[], []⟩ ∨
    applyTxs (writerTxs st mo) k s0 = ⟨st.foldl upsertStatic [], []⟩ ∨
    applyTxs (writerTxs st mo) k s0 =
      ⟨st.foldl upsertStatic [], mo.foldl upsertMobile []⟩ := by
  interval_cases k
  · exact Or.inl rfl
  · exact Or.inr (Or.inl rfl)
  · exact Or.inr (Or.inr (Or.inl rfl))
  · exact Or.inr (Or.inr (Or.inr rfl))

/-- C1 witness: the state characterisation applied at a concrete database
state and prefix length. -/
theorem C1_writer_tx_states_witness :
    applyTxs (writerTxs [⟨"BB", 1, 2, 0, 5, 9, 3⟩] []) 2 ⟨[⟨"AA", 0, 0, 0, 0, 0, 1⟩], []⟩ =
        ⟨[⟨"AA", 0, 0, 0, 0, 0, 1⟩], []⟩ ∨
    applyTxs (writerTxs [⟨"BB", 1, 2, 0, 5, 9, 3⟩] []) 2 ⟨[⟨"AA", 0, 0, 0, 0, 0, 1⟩], []⟩ =
        ⟨[], []⟩ ∨
    applyTxs (writerTxs [⟨"BB", 1, 2, 0, 5, 9, 3⟩] []) 2 ⟨[⟨"AA", 0, 0, 0, 0, 0, 1⟩], []⟩ =
        ⟨[⟨"BB", 1, 2, 0, 5, 9, 3⟩].foldl upsertStatic [], []⟩ ∨
    applyTxs (writerTxs [⟨"BB", 1, 2, 0, 5, 9, 3⟩] []) 2 ⟨[⟨"AA", 0, 0, 0, 0, 0, 1⟩], []⟩ =
        ⟨[⟨"BB", 1, 2, 0, 5, 9, 3⟩].foldl upsertStatic [],
          [].foldl upsertMobile []⟩ :=
  C1_writer_tx_states [⟨"BB", 1, 2, 0, 5, 9, 3⟩] [] ⟨[⟨"AA", 0, 0, 0, 0, 0, 1⟩], []⟩ 2
    (by decide)

/-- C1 counterexample: after the first transaction (drop/re-create) the
visible state is neither the run-start state nor the final state — the
writer is not a single transaction, so the recreated-but-empty tables are
a persistable intermediate state. -/
theorem C1_counterexample :
    ¬ (applyTxs (writerTxs [⟨"BB", 1, 2, 0, 5, 9, 3⟩] [⟨"CC", 7, 0, 0⟩]) 1
          ⟨[⟨"AA", 0, 0, 0, 0, 0, 1⟩], []⟩ =
        ⟨[⟨"AA", 0, 0, 0, 0, 0, 1⟩], []⟩ ∨
      applyTxs (writerTxs [⟨"BB", 1, 2, 0, 5, 9, 3⟩] [⟨"CC", 7, 0, 0⟩]) 1
          ⟨[⟨"AA", 0, 0, 0, 0, 0, 1⟩], []⟩ =
        applyTxs (writerTxs [⟨"BB", 1, 2, 0, 5, 9, 3⟩] [⟨"CC", 7, 0, 0⟩]) 3
          ⟨[⟨"AA", 0, 0, 0, 0, 0, 1⟩], []⟩) := by
  decide

/-! ## C2: Weiszfeld termination and the (absent) iteration cap -/

/-- The source's Weiszfeld loop has exactly one successful exit: the
step-below-`eps` test.  Whenever `geometric_median`'s loop returns a
value, that value is the update of some iterate whose step was below
`eps`; there is no iteration-cap exit returning a non-converged iterate. -/
theorem C2_eps_only_exit (dist : Dist) (pts : List (ℚ × ℚ)) (ws : List ℚ)
    (fuel : Nat) (x y : ℚ × ℚ) (h : gmLoop dist pts ws fuel x = .ok y) :
    ∃ x0, y = gmNext dist pts ws x0 ∧ dist x0 y < qeps := by
  induction fuel generalizing x with
  | zero => exact absurd h (by simp [gmLoop])
  | succ n ih =>
    rw [gmLoop] at h
    by_cases hd : gmDenom dist pts ws x = 0
    · simp [hd] at h
    · by_cases hc : dist x (gmNext dist pts ws x) < qeps
      · refine ⟨x, ?_, ?_⟩
        · simpa [hd, hc] using h.symm
        · have hy : y = gmNext dist pts ws x := by simpa [hd, hc] using h.symm
          simpa [hy] using hc
      · exact ih (gmNext dist pts ws x) (by simpa [hd, hc] using h)

/-- C2 witness: a run that converges immediately, exhibiting the `eps`
exit of the loop. -/
theorem C2_eps_only_exit_witness :
    ∃ x0, ((0 : ℚ), (0 : ℚ)) = gmNext (fun _ _ => 0) [((0 : ℚ), (0 : ℚ))] [1] x0 ∧
      (fun _ _ => (0 : ℚ)) x0 ((0 : ℚ), (0 : ℚ)) < qeps :=
  C2_eps_only_exit (fun _ _ => 0) [((0 : ℚ), (0 : ℚ))] [1] 1 ((0 : ℚ), (0 : ℚ))
    ((0 : ℚ), (0 : ℚ)) (by norm_num [gmLoop, gmDenom, gmNext, qeps, qclamp])

/-- Under `distOsc` the loop oscillates between `(2,0)` and `(1,0)` and
never returns, for any amount of fuel. -/
theorem gmLoop_distOsc_oscillates (n : Nat) :
    gmLoop distOsc [((0 : ℚ), (0 : ℚ)), (4, 0)] [1, 1] n (2, 0) = .error .nonConvergence ∧
    gmLoop distOsc [((0 : ℚ), (0 : ℚ)), (4, 0)] [1, 1] n (1, 0) = .error .nonConvergence := by
  induction n with
  | zero => exact ⟨rfl, rfl⟩
  | succ k ih =>
    have e2 : gmNext distOsc [((0 : ℚ), (0 : ℚ)), (4, 0)] [1, 1] (2, 0) = (1, 0) := by
      norm_num [gmNext, gmDenom, distOsc, qclamp]
    have e2' : gmNext distOsc [((0 : ℚ), (0 : ℚ)), (4, 0)] [1, 1] (1, 0) = (2, 0) := by
      norm_num [gmNext, gmDenom, distOsc, qclamp]
    constructor
    · rw [gmLoop, e2]
      have : ¬ distOsc (2, 0) (1, 0) < qeps := by norm_num [distOsc, qeps]
      simp only [this, if_false]
      have hd : ¬ gmDenom distOsc [((0 : ℚ), (0 : ℚ)), (4, 0)] [1, 1] (2, 0) = 0 := by
        norm_num [gmDenom, distOsc, qclamp]
      simp only [hd, if_false]
      exact ih.2
    · rw [gmLoop, e2']
      have : ¬ distOsc (1, 0) (2, 0) < qeps := by norm_num [distOsc, qeps]
      simp only [this, if_false]
      have hd : ¬ gmDenom distOsc [((0 : ℚ), (0 : ℚ)), (4, 0)] [1, 1] (1, 0) = 0 := by
        norm_num [gmDenom, distOsc, qclamp]
      simp only [hd, if_false]
      exact ih.1

/-- C2 counterexample: on a non-convergent instance the source's
`geometric_median` is still looping after 1000 iterations (it never
terminates), while the spec's capped loop would have returned its final
iterate — there is no fallback iteration cap in the code. -/
theorem C2_counterexample :
    geometricMedian distOsc 1000 [((0 : ℚ), (0 : ℚ)), (4, 0)] [1, 1] =
        .error .nonConvergence ∧
    (gmLoopCapped distOsc [((0 : ℚ), (0 : ℚ)), (4, 0)] [1, 1] 1000 (2, 0)).isSome = true := by
  constructor
  · have hs : ¬ ([(1 : ℚ), 1].sum = 0) := by norm_num
    have hstart : gmStart [((0 : ℚ), (0 : ℚ)), (4, 0)] [1, 1] = (2, 0) := by
      norm_num [gmStart]
    rw [geometricMedian, if_neg hs, hstart]
    exact (gmLoop_distOsc_oscillates 1000).1
  · have hcap : ∀ n, (gmLoopCapped distOsc [((0 : ℚ), (0 : ℚ)), (4, 0)] [1, 1] n
        (2, 0)).isSome = true ∧
        (gmLoopCapped distOsc [((0 : ℚ), (0 : ℚ)), (4, 0)] [1, 1] n (1, 0)).isSome = true := by
      intro n
      induction n with
      | zero => exact ⟨rfl, rfl⟩
      | succ k ih =>
        have e2 : gmNext distOsc [((0 : ℚ), (0 : ℚ)), (4, 0)] [1, 1] (2, 0) = (1, 0) := by
          norm_num [gmNext, gmDenom, distOsc, qclamp]
        have e2' : gmNext distOsc [((0 : ℚ), (0 : ℚ)), (4, 0)] [1, 1] (1, 0) = (2, 0) := by
          norm_num [gmNext, gmDenom, distOsc, qclamp]
        constructor
        · rw [gmLoopCapped, e2]
          have h1 : ¬ distOsc (2, 0) (1, 0) < qeps := by norm_num [distOsc, qeps]
          have hd : ¬ gmDenom distOsc [((0 : ℚ), (0 : ℚ)), (4, 0)] [1, 1] (2, 0) = 0 := by
            norm_num [gmDenom, distOsc, qclamp]
          simp only [h1, hd, if_false]
          exact ih.2
        · rw [gmLoopCapped, e2']
          have h1 : ¬ distOsc (1, 0) (2, 0) < qeps := by norm_num [distOsc, qeps]
          have hd : ¬ gmDenom distOsc [((0 : ℚ), (0 : ℚ)), (4, 0)] [1, 1] (1, 0) = 0 := by
            norm_num [gmDenom, distOsc, qclamp]
          simp only [h1, hd, if_false]
          exact ih.1
    exact (hcap 1000).1

/-! ## C3: zero-total-weight windows -/

/-- Pass 1 of `_aggregate_static` raises `ZeroDivisionError` as soon as it
meets a window whose weights sum to zero. -/
theorem collectE_summarize_error (wfun : ℚ → ℚ) (l : List Win)
    (hw : ∃ w ∈ l, winTotW wfun w = 0) :
    collectE (fun w => (summarizeWin wfun w).map (fun s => (w.mac, s))) l =
      .error .zeroDivision := by
  induction l with
  | nil => simp at hw
  | cons w tl ih =>
    by_cases h0 : winTotW wfun w = 0
    · have hs : summarizeWin wfun w = .error .zeroDivision := by
        rw [summarizeWin, if_pos h0]
      simp only [collectE, hs]
      rfl
    · have htl : ∃ w ∈ tl, winTotW wfun w = 0 := by
        rcases hw with ⟨w', hw', h0'⟩
        rcases List.mem_cons.1 hw' with rfl | hmem
        · exact absurd h0' h0
        · exact ⟨w', hmem, h0'⟩
      have hs : ∃ s, summarizeWin wfun w = .ok s :=
        ⟨_, by rw [summarizeWin, if_neg h0]⟩
      rcases hs with ⟨s, hs⟩
      simp only [collectE, hs, ih htl]
      rfl

/-- C3 (amended): a stationary window whose RSSI weights sum to zero is
not skipped — the per-window centroid division raises
`ZeroDivisionError`, and the exception propagates out of the whole
static-aggregation stage. -/
theorem C3_zero_weight_raises (dist : Dist) (wfun : ℚ → ℚ) (fuel : Nat)
    (statWins : List Win) (hw : ∃ w ∈ statWins, winTotW wfun w = 0) :
    aggregateStatic dist wfun fuel statWins = .error .zeroDivision := by
  rw [aggregateStatic, collectE_summarize_error wfun statWins hw]

/-- C3 witness: the zero-weight propagation applied to a concrete
two-window batch whose second window has zero total weight. -/
theorem C3_zero_weight_raises_witness :
    aggregateStatic (fun _ _ => 0) (fun r => r + 50) 7
        [⟨"AA", 1000, 1000, [⟨"AA", 1000, 0, 0, -50⟩]⟩,
         ⟨"BB", 2000, 2000, [⟨"BB", 2000, 1, 1, -50⟩]⟩] = .error .zeroDivision :=
  C3_zero_weight_raises (fun _ _ => 0) (fun r => r + 50) 7
    [⟨"AA", 1000, 1000, [⟨"AA", 1000, 0, 0, -50⟩]⟩,
     ⟨"BB", 2000, 2000, [⟨"BB", 2000, 1, 1, -50⟩]⟩]
    ⟨⟨"AA", 1000, 1000, [⟨"AA", 1000, 0, 0, -50⟩]⟩, by
      constructor
      · exact List.mem_cons_self _ _
      · norm_num [winTotW]⟩

/-- C3 counterexample: on a batch containing a zero-total-weight window
the aggregation returns the propagated `ZeroDivisionError` instead of an
`ok` result with the MAC skipped — the claimed skip-and-log handling does
not exist. -/
theorem C3_counterexample :
    aggregateStatic (fun _ _ => 0) (fun _ => 0) 5
        [⟨"AA", 1000, 1000, [⟨"AA", 1000, 0, 0, -50⟩]⟩] = .error .zeroDivision ∧
    ∀ rows, aggregateStatic (fun _ _ => 0) (fun _ => 0) 5
        [⟨"AA", 1000, 1000, [⟨"AA", 1000, 0, 0, -50⟩]⟩] ≠ .ok rows := by
  have h : aggregateStatic (fun _ _ => 0) (fun _ => 0) 5
      [⟨"AA", 1000, 1000, [⟨"AA", 1000, 0, 0, -50⟩]⟩] = .error .zeroDivision := by
    simp [aggregateStatic, collectE, summarizeWin, winTotW, Except.map]
  exact ⟨h, fun rows hrows => by rw [h] at hrows; exact Except.noConfusion hrows⟩

/-! ## C6: the decimator's keep-condition and speed gate -/

/-- The three cases of one `_decimate_track` loop step: a candidate
passing the keep-condition but exceeding the speed gate is discarded with
`last` unchanged; one passing both is emitted and becomes the new `last`;
one failing the keep-condition is skipped with `last` unchanged. -/
theorem C6_decimation_step (cfg : ClassifierConfig) (dist : Dist)
    (last curr : Obs) (rest : List Obs) :
    ((cfg.mobile_decim_d ≤ dist (last.lat, last.lon) (curr.lat, curr.lon) ∨
        cfg.mobile_decim_t ≤ curr.ts - last.ts) →
      cfg.max_speed_ms <
        dist (last.lat, last.lon) (curr.lat, curr.lon) /
          ((max (curr.ts - last.ts) 1 : Int) : ℚ) →
      decimateLoop cfg dist last (curr :: rest) = decimateLoop cfg dist last rest) ∧
    ((cfg.mobile_decim_d ≤ dist (last.lat, last.lon) (curr.lat, curr.lon) ∨
        cfg.mobile_decim_t ≤ curr.ts - last.ts) →
      dist (last.lat, last.lon) (curr.lat, curr.lon) /
          ((max (curr.ts - last.ts) 1 : Int) : ℚ) ≤ cfg.max_speed_ms →
      decimateLoop cfg dist last (curr :: rest) =
        ⟨curr.mac, curr.ts, curr.lat, curr.lon⟩ :: decimateLoop cfg dist curr rest) ∧
    (¬ (cfg.mobile_decim_d ≤ dist (last.lat, last.lon) (curr.lat, curr.lon) ∨
        cfg.mobile_decim_t ≤ curr.ts - last.ts) →
      decimateLoop cfg dist last (curr :: rest) = decimateLoop cfg dist last rest) := by
  refine ⟨fun hkeep hfast => ?_, fun hkeep hslow => ?_, fun hskip => ?_⟩
  · rw [decimateLoop, if_pos hkeep, if_neg (not_le.2 hfast)]
  · rw [decimateLoop, if_pos hkeep, if_pos hslow]
  · rw [decimateLoop, if_neg hskip]

/-- C6 witness: the speed gate discarding a spurious jump (`dt = 0`,
distance 1000 m, driving preset) without touching `last`, at a concrete
input. -/
theorem C6_decimation_step_witness :
    decimateLoop ClassifierConfig.driving (fun _ _ => 1000)
        ⟨"AA", 5, 0, 0, -50⟩ [⟨"AA", 5, 1, 1, -50⟩] =
      decimateLoop ClassifierConfig.driving (fun _ _ => 1000) ⟨"AA", 5, 0, 0, -50⟩ [] :=
  (C6_decimation_step ClassifierConfig.driving (fun _ _ => 1000)
      ⟨"AA", 5, 0, 0, -50⟩ ⟨"AA", 5, 1, 1, -50⟩ []).1
    (Or.inl (by norm_num [ClassifierConfig.driving]))
    (by norm_num [ClassifierConfig.driving])

/-! ## C5: the stationary splitter is a partition by diameter -/

/-- The splitter fold, started from any accumulator pair, appends the
diameter-filtered sublists. -/
theorem splitStationary_foldl (cfg : ClassifierConfig) (dist : Dist) (wins : List Win) :
    ∀ a b : List Win,
      wins.foldl
        (fun acc w =>
          if winDiameter dist w ≤ cfg.r_stationary then (acc.1 ++ [w], acc.2)
          else (acc.1, acc.2 ++ [w]))
        (a, b) =
      (a ++ wins.filter (fun w => decide (winDiameter dist w ≤ cfg.r_stationary)),
       b ++ wins.filter (fun w => !decide (winDiameter dist w ≤ cfg.r_stationary))) := by
  induction wins with
  | nil => simp
  | cons w tl ih =>
    intro a b
    by_cases h : winDiameter dist w ≤ cfg.r_stationary
    · simp [List.filter_cons, h, ih]
    · simp [List.filter_cons, h, ih]

/-- `_split_stationary` returns exactly the two diameter-filtered
sublists of its input. -/
theorem splitStationary_eq_filter (cfg : ClassifierConfig) (dist : Dist) (wins : List Win) :
    splitStationary cfg dist wins =
      (wins.filter (fun w => decide (winDiameter dist w ≤ cfg.r_stationary)),
       wins.filter (fun w => !decide (winDiameter dist w ≤ cfg.r_stationary))) := by
  simpa using splitStationary_foldl cfg dist wins [] []

/-- The splitter is a partition: the two outputs together are a
permutation of the input; a window is stationary iff its diameter is
`≤ r_stationary` and mobile iff not; the outputs are disjoint; and a
single-point window has diameter 0, hence is stationary whenever
`r_stationary ≥ 0`. -/
theorem C5_split_partition (cfg : ClassifierConfig) (dist : Dist) (wins : List Win) :
    ((splitStationary cfg dist wins).1 ++ (splitStationary cfg dist wins).2).Perm wins ∧
    (∀ w, w ∈ (splitStationary cfg dist wins).1 ↔
        w ∈ wins ∧ winDiameter dist w ≤ cfg.r_stationary) ∧
    (∀ w, w ∈ (splitStationary cfg dist wins).2 ↔
        w ∈ wins ∧ ¬ winDiameter dist w ≤ cfg.r_stationary) ∧
    (∀ w, ¬ (w ∈ (splitStationary cfg dist wins).1 ∧
        w ∈ (splitStationary cfg dist wins).2)) ∧
    (∀ w ∈ wins, ∀ p, w.points = [p] →
        winDiameter dist w = 0 ∧
          (0 ≤ cfg.r_stationary → w ∈ (splitStationary cfg dist wins).1)) := by
  rw [splitStationary_eq_filter]
  refine ⟨List.filter_append_perm _ wins, fun w => ?_, fun w => ?_, fun w hw => ?_, ?_⟩
  · simp [List.mem_filter]
  · simp [List.mem_filter]
  · simp only [List.mem_filter, decide_eq_true_eq, Bool.not_eq_true'] at hw
    rcases hw with ⟨⟨_, h1⟩, _, h2⟩
    rw [decide_eq_false_iff_not] at h2
    exact h2 h1
  · intro w hw p hp
    have hd : winDiameter dist w = 0 := by
      rw [winDiameter, hp]
      simp [pairsAfter]
    refine ⟨hd, fun hr => ?_⟩
    simp [List.mem_filter, hw, hd, hr]

/-- C5 witness: a concrete single-point window is classified stationary
with diameter 0. -/
theorem C5_split_partition_witness :
    winDiameter (fun _ _ => 1) ⟨"AA", 3, 3, [⟨"AA", 3, 5, 6, -40⟩]⟩ = 0 ∧
    (0 ≤ ClassifierConfig.driving.r_stationary →
      ⟨"AA", 3, 3, [⟨"AA", 3, 5, 6, -40⟩]⟩ ∈
        (splitStationary ClassifierConfig.driving (fun _ _ => 1)
            [⟨"AA", 3, 3, [⟨"AA", 3, 5, 6, -40⟩]⟩]).1) :=
  (C5_split_partition ClassifierConfig.driving (fun _ _ => 1)
      [⟨"AA", 3, 3, [⟨"AA", 3, 5, 6, -40⟩]⟩]).2.2.2.2
    ⟨"AA", 3, 3, [⟨"AA", 3, 5, 6, -40⟩]⟩ (List.mem_singleton.2 rfl)
    ⟨"AA", 3, 5, 6, -40⟩ rfl

/-! ### Properties of the stable sort -/

/-- Inserting permutes: `insertByTs o l` is `o :: l` up to order. -/
theorem insertByTs_perm (o : Obs) (l : List Obs) : (insertByTs o l).Perm (o :: l) := by
  induction l with
  | nil => simp [insertByTs]
  | cons x xs ih =>
    rw [insertByTs]
    by_cases h : o.ts ≤ x.ts
    · rw [if_pos h]
    · rw [if_neg h]
      exact (ih.cons x).trans (List.Perm.swap o x xs)

/-- The sort permutes its input. -/
theorem sortByTs_perm (l : List Obs) : (sortByTs l).Perm l := by
  induction l with
  | nil => rfl
  | cons x xs ih =>
    exact (insertByTs_perm x (sortByTs xs)).trans (ih.cons x)

/-- The head of `insertByTs o l` is `o` or the head of `l`. -/
theorem insertByTs_head (o : Obs) (l : List Obs) :
    (insertByTs o l).head? = some o ∨ (insertByTs o l).head? = l.head? := by
  cases l with
  | nil => exact Or.inl rfl
  | cons x xs =>
    rw [insertByTs]
    by_cases h : o.ts ≤ x.ts
    · rw [if_pos h]; exact Or.inl rfl
    · rw [if_neg h]; exact Or.inr rfl

/-- Insertion preserves sortedness by `ts`. -/
theorem insertByTs_chain (o : Obs) (l : List Obs)
    (hl : List.Chain' (fun a b : Obs => a.ts ≤ b.ts) l) :
    List.Chain' (fun a b : Obs => a.ts ≤ b.ts) (insertByTs o l) := by
  induction l with
  | nil => simp [insertByTs]
  | cons x xs ih =>
    rw [insertByTs]
    by_cases h : o.ts ≤ x.ts
    · rw [if_pos h]
      exact hl.cons h
    · rw [if_neg h]
      have hxs := (List.chain'_cons'.1 hl).2
      refine List.chain'_cons'.2 ⟨?_, ih hxs⟩
      intro y hy
      rcases insertByTs_head o xs with hh | hh
      · rw [Option.mem_def, hh] at hy
        cases hy
        exact le_of_not_le h
      · rw [Option.mem_def, hh] at hy
        exact (List.chain'_cons'.1 hl).1 y hy

/-- The sort output is non-decreasing in `ts`. -/
theorem sortByTs_chain (l : List Obs) :
    List.Chain' (fun a b : Obs => a.ts ≤ b.ts) (sortByTs l) := by
  induction l with
  | nil => exact List.chain'_nil
  | cons x xs ih => exact insertByTs_chain x (sortByTs xs) ih

/-! ### Chain invariants of the decimator loop -/

/-- Every point the loop emits keeps the MAC of the observation it came
from. -/
theorem decimateLoop_mac (cfg : ClassifierConfig) (dist : Dist) (m : String) :
    ∀ (last : Obs) (pts : List Obs), (∀ p ∈ pts, p.mac = m) →
      ∀ r ∈ decimateLoop cfg dist last pts, r.mac = m := by
  intro last pts
  induction pts generalizing last with
  | nil => intro _ r hr; simp [decimateLoop] at hr
  | cons curr rest ih =>
    intro hmac r hr
    rw [decimateLoop] at hr
    split at hr
    · split at hr
      · rcases List.mem_cons.1 hr with rfl | hr'
        · exact hmac curr (List.mem_cons_self _ _)
        · exact ih curr (fun p hp => hmac p (List.mem_cons_of_mem _ hp)) r hr'
      · exact ih last (fun p hp => hmac p (List.mem_cons_of_mem _ hp)) r hr
    · exact ih last (fun p hp => hmac p (List.mem_cons_of_mem _ hp)) r hr

/-- Consecutive points of the loop's emission (with the reference point
prepended) satisfy the source's keep-condition and speed gate, and are
non-decreasing in `ts`. -/
theorem decimateLoop_chain (cfg : ClassifierConfig) (dist : Dist) :
    ∀ (last : Obs) (pts : List Obs),
      List.Chain' (fun a b : Obs => a.ts ≤ b.ts) (last :: pts) →
      List.Chain'
        (fun p q : MobileTrackPoint =>
          p.ts ≤ q.ts ∧
          (cfg.mobile_decim_d ≤ dist (p.lat, p.lon) (q.lat, q.lon) ∨
            cfg.mobile_decim_t ≤ q.ts - p.ts) ∧
          dist (p.lat, p.lon) (q.lat, q.lon) / ((max (q.ts - p.ts) 1 : Int) : ℚ) ≤
            cfg.max_speed_ms)
        (⟨last.mac, last.ts, last.lat, last.lon⟩ :: decimateLoop cfg dist last pts) := by
  intro last pts
  induction pts generalizing last with
  | nil => intro _; simp [decimateLoop]
  | cons curr rest ih =>
    intro hsort
    have hlc : last.ts ≤ curr.ts := (List.chain'_cons.1 hsort).1
    have hcr : List.Chain' (fun a b : Obs => a.ts ≤ b.ts) (curr :: rest) :=
      (List.chain'_cons.1 hsort).2
    have hlr : List.Chain' (fun a b : Obs => a.ts ≤ b.ts) (last :: rest) := by
      refine List.chain'_cons'.2 ⟨?_, (List.chain'_cons'.1 hcr).2⟩
      intro y hy
      exact le_trans hlc ((List.chain'_cons'.1 hcr).1 y hy)
    rw [decimateLoop]
    by_cases hkeep : cfg.mobile_decim_d ≤ dist (last.lat, last.lon) (curr.lat, curr.lon) ∨
        cfg.mobile_decim_t ≤ curr.ts - last.ts
    · rw [if_pos hkeep]
      by_cases hspeed : dist (last.lat, last.lon) (curr.lat, curr.lon) /
          ((max (curr.ts - last.ts) 1 : Int) : ℚ) ≤ cfg.max_speed_ms
      · rw [if_pos hspeed]
        exact List.chain'_cons.2 ⟨⟨hlc, hkeep, hspeed⟩, ih curr hcr⟩
      · rw [if_neg hspeed]
        exact ih last hlr
    · rw [if_neg hkeep]
      exact ih last hlr

/-- Under the preset constraints `mobile_decim_t > 0` and
`mobile_decim_d > max_speed_ms`, the loop's emissions are strictly
increasing in `ts`: a zero-`dt` candidate can only pass the
keep-condition through the distance threshold, which then trips the speed
gate. -/
theorem decimateLoop_chain_lt (cfg : ClassifierConfig) (dist : Dist)
    (hT : 0 < cfg.mobile_decim_t) (hD : cfg.max_speed_ms < cfg.mobile_decim_d) :
    ∀ (last : Obs) (pts : List Obs),
      List.Chain' (fun a b : Obs => a.ts ≤ b.ts) (last :: pts) →
      List.Chain' (fun p q : MobileTrackPoint => p.ts < q.ts)
        (⟨last.mac, last.ts, last.lat, last.lon⟩ :: decimateLoop cfg dist last pts) := by
  intro last pts
  induction pts generalizing last with
  | nil => intro _; simp [decimateLoop]
  | cons curr rest ih =>
    intro hsort
    have hlc : last.ts ≤ curr.ts := (List.chain'_cons.1 hsort).1
    have hcr : List.Chain' (fun a b : Obs => a.ts ≤ b.ts) (curr :: rest) :=
      (List.chain'_cons.1 hsort).2
    have hlr : List.Chain' (fun a b : Obs => a.ts ≤ b.ts) (last :: rest) := by
      refine List.chain'_cons'.2 ⟨?_, (List.chain'_cons'.1 hcr).2⟩
      intro y hy
      exact le_trans hlc ((List.chain'_cons'.1 hcr).1 y hy)
    rw [decimateLoop]
    by_cases hkeep : cfg.mobile_decim_d ≤ dist (last.lat, last.lon) (curr.lat, curr.lon) ∨
        cfg.mobile_decim_t ≤ curr.ts - last.ts
    · rw [if_pos hkeep]
      by_cases hspeed : dist (last.lat, last.lon) (curr.lat, curr.lon) /
          ((max (curr.ts - last.ts) 1 : Int) : ℚ) ≤ cfg.max_speed_ms
      · rw [if_pos hspeed]
        refine List.chain'_cons.2 ⟨?_, ih curr hcr⟩
        by_contra hts
        dsimp only at hts
        have hdt0 : curr.ts - last.ts = 0 := by omega
        have hd : cfg.mobile_decim_d ≤ dist (last.lat, last.lon) (curr.lat, curr.lon) := by
          rcases hkeep with h | h
          · exact h
          · exact absurd h (by omega)
        have hmax : (max (curr.ts - last.ts) 1 : Int) = 1 := by
          rw [hdt0]
          decide
        rw [hmax] at hspeed
        simp only [Int.cast_one, div_one] at hspeed
        exact absurd (lt_of_lt_of_le hD hd) (not_lt.2 hspeed)
      · rw [if_neg hspeed]
        exact ih last hlr
    · rw [if_neg hkeep]
      exact ih last hlr

/-! ### Per-MAC grouping facts -/

/-- `firstKeys` keeps exactly the elements of its input. -/
theorem mem_firstKeys (a : String) : ∀ l : List String, a ∈ firstKeys l ↔ a ∈ l := by
  intro l
  induction l using firstKeys.induct with
  | case1 => simp [firstKeys]
  | case2 m ms ih =>
    rw [firstKeys]
    by_cases ham : a = m
    · subst ham
      simp
    · simp only [List.mem_cons, ih, List.mem_filter, decide_eq_true_eq]
      constructor
      · rintro (rfl | ⟨h, _⟩)
        · exact Or.inl rfl
        · exact Or.inr h
      · rintro (rfl | h)
        · exact Or.inl rfl
        · exact Or.inr ⟨h, ham⟩

/-- `firstKeys` has no duplicates. -/
theorem firstKeys_nodup : ∀ l : List String, (firstKeys l).Nodup := by
  intro l
  induction l using firstKeys.induct with
  | case1 => simp [firstKeys]
  | case2 m ms ih =>
    rw [firstKeys]
    refine List.nodup_cons.2 ⟨?_, ih⟩
    intro hm
    have := (mem_firstKeys m _).1 hm
    simp at this

/-- Filtering distributes over `flatMap`. -/
theorem filter_flatMap_groups {α β : Type} (l : List α) (f : α → List β) (p : β → Bool) :
    (l.flatMap f).filter p = l.flatMap (fun a => (f a).filter p) := by
  induction l with
  | nil => rfl
  | cons a tl ih => simp [List.flatMap_cons, List.filter_append, ih]

/-- Filtering a MAC-keyed concatenation of groups by one key returns that
key's group (or nothing when the key is absent). -/
theorem flatMap_filter_key (keys : List String) (f : String → List MobileTrackPoint)
    (m : String) (hnd : keys.Nodup) (hf : ∀ k, ∀ r ∈ f k, r.mac = k) :
    (keys.flatMap f).filter (fun r => decide (r.mac = m)) =
      if m ∈ keys then f m else [] := by
  induction keys with
  | nil => rfl
  | cons k ks ih =>
    have hnd' := List.nodup_cons.1 hnd
    rw [List.flatMap_cons, List.filter_append, ih hnd'.2]
    by_cases hkm : k = m
    · subst hkm
      have h1 : (f k).filter (fun r => decide (r.mac = k)) = f k :=
        List.filter_eq_self.2 (fun r hr => by simp [hf k r hr])
      rw [h1, if_neg (fun h => hnd'.1 h), if_pos (List.mem_cons_self _ _)]
      simp
    · have h1 : (f k).filter (fun r => decide (r.mac = m)) = [] := by
        rw [List.filter_eq_nil_iff]
        intro r hr
        simp [hf k r hr, hkm]
      rw [h1]
      by_cases hm : m ∈ ks
      · rw [if_pos hm, if_pos (List.mem_cons_of_mem _ hm)]
        simp
      · have hnotin : m ∉ k :: ks := by
          intro hc
          rcases List.mem_cons.1 hc with h | h
          · exact hkm h.symm
          · exact hm h
        rw [if_neg hm, if_neg hnotin]
        simp

/-- Every observation grouped under key `m` carries MAC `m` (windows are
MAC-coherent). -/
theorem macPoints_mac (wins : List Win) (m : String)
    (hcoh : ∀ w ∈ wins, ∀ p ∈ w.points, p.mac = w.mac) :
    ∀ p ∈ sortByTs ((wins.filter (fun w => decide (w.mac = m))).flatMap
        (fun w => w.points)), p.mac = m := by
  intro p hp
  have hp' := (sortByTs_perm _).mem_iff.1 hp
  rcases List.mem_flatMap.1 hp' with ⟨w, hw, hpw⟩
  rcases List.mem_filter.1 hw with ⟨hwin, hmac⟩
  rw [hcoh w hwin p hpw]
  exact of_decide_eq_true hmac

/-- `_decimate_track` only emits points with the MAC of its input. -/
theorem decimateTrack_mac (cfg : ClassifierConfig) (dist : Dist) (l : List Obs)
    (m : String) (h : ∀ p ∈ l, p.mac = m) :
    ∀ r ∈ decimateTrack cfg dist l, r.mac = m := by
  cases l with
  | nil => intro r hr; simp [decimateTrack] at hr
  | cons p rest =>
    intro r hr
    rw [decimateTrack] at hr
    rcases List.mem_cons.1 hr with rfl | hr'
    · exact h p (List.mem_cons_self _ _)
    · exact decimateLoop_mac cfg dist m p rest
        (fun q hq => h q (List.mem_cons_of_mem _ hq)) r hr'

/-- Every point of a per-MAC track carries that MAC. -/
theorem macTrack_mac (cfg : ClassifierConfig) (dist : Dist) (wins : List Win)
    (hcoh : ∀ w ∈ wins, ∀ p ∈ w.points, p.mac = w.mac) :
    ∀ m, ∀ r ∈ macTrack cfg dist wins m, r.mac = m := by
  intro m r hr
  rw [macTrack] at hr
  split at hr
  · exact decimateTrack_mac cfg dist _ m (macPoints_mac wins m hcoh) r hr
  · simp at hr

/-- The consecutive-pair invariants hold along any decimated track. -/
theorem decimateTrack_chain (cfg : ClassifierConfig) (dist : Dist) (l : List Obs)
    (hs : List.Chain' (fun a b : Obs => a.ts ≤ b.ts) l) :
    List.Chain'
      (fun p q : MobileTrackPoint =>
        p.ts ≤ q.ts ∧
        (cfg.mobile_decim_d ≤ dist (p.lat, p.lon) (q.lat, q.lon) ∨
          cfg.mobile_decim_t ≤ q.ts - p.ts) ∧
        dist (p.lat, p.lon) (q.lat, q.lon) / ((max (q.ts - p.ts) 1 : Int) : ℚ) ≤
          cfg.max_speed_ms)
      (decimateTrack cfg dist l) := by
  cases l with
  | nil => exact List.chain'_nil
  | cons p rest => exact decimateLoop_chain cfg dist p rest hs

/-- Strict `ts` monotonicity along any decimated track, under the preset
constraints. -/
theorem decimateTrack_chain_lt (cfg : ClassifierConfig) (dist : Dist)
    (hT : 0 < cfg.mobile_decim_t) (hD : cfg.max_speed_ms < cfg.mobile_decim_d)
    (l : List Obs) (hs : List.Chain' (fun a b : Obs => a.ts ≤ b.ts) l) :
    List.Chain' (fun p q : MobileTrackPoint => p.ts < q.ts) (decimateTrack cfg dist l) := by
  cases l with
  | nil => exact List.chain'_nil
  | cons p rest => exact decimateLoop_chain_lt cfg dist hT hD p rest hs

/-- Strict `ts` monotonicity along any per-MAC track, under the preset
constraints. -/
theorem macTrack_chain_lt (cfg : ClassifierConfig) (dist : Dist) (wins : List Win)
    (hT : 0 < cfg.mobile_decim_t) (hD : cfg.max_speed_ms < cfg.mobile_decim_d)
    (m : String) :
    List.Chain' (fun p q : MobileTrackPoint => p.ts < q.ts) (macTrack cfg dist wins m) := by
  rw [macTrack]
  split
  · exact decimateTrack_chain_lt cfg dist hT hD _ (sortByTs_chain _)
  · exact List.chain'_nil

/-! ## C7: invariants of the emitted mobile tracks -/

/-- For every MAC present in the mobile output, its emitted track has at
least two points, and consecutive emitted points are non-decreasing in
`ts`, satisfy the keep-condition thresholds, and respect the speed gate. -/
theorem C7_mobile_track_invariants (cfg : ClassifierConfig) (dist : Dist)
    (wins : List Win) (mac : String)
    (hcoh : ∀ w ∈ wins, ∀ p ∈ w.points, p.mac = w.mac)
    (t : List MobileTrackPoint)
    (ht : t = (decimateMobile cfg dist wins).filter (fun r => decide (r.mac = mac)))
    (hne : t ≠ []) :
    2 ≤ t.length ∧
    List.Chain'
      (fun p q : MobileTrackPoint =>
        p.ts ≤ q.ts ∧
        (cfg.mobile_decim_d ≤ dist (p.lat, p.lon) (q.lat, q.lon) ∨
          cfg.mobile_decim_t ≤ q.ts - p.ts) ∧
        dist (p.lat, p.lon) (q.lat, q.lon) / ((max (q.ts - p.ts) 1 : Int) : ℚ) ≤
          cfg.max_speed_ms)
      t := by
  rw [decimateMobile, flatMap_filter_key _ _ mac (firstKeys_nodup _)
        (macTrack_mac cfg dist wins hcoh)] at ht
  split at ht
  · rw [macTrack] at ht
    split at ht
    · subst ht
      constructor
      · assumption
      · exact decimateTrack_chain cfg dist _ (sortByTs_chain _)
    · exact absurd ht hne
  · exact absurd ht hne

/-- C7 witness: a two-point track for MAC `BB` (gap 40 s ≥ 30 s, zero
distance, driving preset) passes decimation with exactly two points. -/
theorem C7_mobile_track_invariants_witness :
    2 ≤ ((decimateMobile ClassifierConfig.driving (fun _ _ => 0)
        [⟨"BB", 0, 40, [⟨"BB", 0, 0, 0, -50⟩, ⟨"BB", 40, 0, 0, -50⟩]⟩]).filter
          (fun r => decide (r.mac = "BB"))).length ∧
    List.Chain'
      (fun p q : MobileTrackPoint =>
        p.ts ≤ q.ts ∧
        (ClassifierConfig.driving.mobile_decim_d ≤ (fun _ _ => (0 : ℚ)) (p.lat, p.lon) (q.lat, q.lon) ∨
          ClassifierConfig.driving.mobile_decim_t ≤ q.ts - p.ts) ∧
        (fun _ _ => (0 : ℚ)) (p.lat, p.lon) (q.lat, q.lon) /
            ((max (q.ts - p.ts) 1 : Int) : ℚ) ≤
          ClassifierConfig.driving.max_speed_ms)
      ((decimateMobile ClassifierConfig.driving (fun _ _ => 0)
        [⟨"BB", 0, 40, [⟨"BB", 0, 0, 0, -50⟩, ⟨"BB", 40, 0, 0, -50⟩]⟩]).filter
          (fun r => decide (r.mac = "BB"))) :=
  C7_mobile_track_invariants ClassifierConfig.driving (fun _ _ => 0)
    [⟨"BB", 0, 40, [⟨"BB", 0, 0, 0, -50⟩, ⟨"BB", 40, 0, 0, -50⟩]⟩] "BB"
    (by
      intro w hw p hp
      rcases List.mem_singleton.1 hw with rfl
      rcases List.mem_cons.1 hp with rfl | hp'
      · rfl
      · rcases List.mem_singleton.1 hp' with rfl
        rfl)
    _ rfl
    (by
      norm_num [decimateMobile, firstKeys, macTrack, decimateTrack, decimateLoop, sortByTs,
        insertByTs, ClassifierConfig.driving, List.filter]
      simp)

/-! ## C10: distinct `(mac, ts)` keys in the mobile output -/

/-- A strict `ts` chain gives pairwise-distinct timestamps. -/
theorem chain'_lt_pairwise_ne (l : List MobileTrackPoint)
    (h : List.Chain' (fun p q : MobileTrackPoint => p.ts < q.ts) l) :
    List.Pairwise (fun p q : MobileTrackPoint => p.ts ≠ q.ts) l := by
  haveI : IsTrans MobileTrackPoint (fun p q : MobileTrackPoint => p.ts < q.ts) :=
    ⟨fun _ _ _ hab hbc => lt_trans hab hbc⟩
  exact (List.chain'_iff_pairwise.1 h).imp (fun hlt => ne_of_lt hlt)

/-- MAC-keyed groups with internally distinct timestamps concatenate to a
list with pairwise-distinct `(mac, ts)` keys. -/
theorem pairwise_flatMap_keys (keys : List String) (f : String → List MobileTrackPoint)
    (hnd : keys.Nodup) (hf : ∀ k, ∀ r ∈ f k, r.mac = k)
    (hp : ∀ k, List.Pairwise (fun p q : MobileTrackPoint => p.ts ≠ q.ts) (f k)) :
    List.Pairwise (fun p q : MobileTrackPoint => (p.mac, p.ts) ≠ (q.mac, q.ts))
      (keys.flatMap f) := by
  induction keys with
  | nil => exact List.Pairwise.nil
  | cons k ks ih =>
    have hnd' := List.nodup_cons.1 hnd
    rw [List.flatMap_cons]
    refine List.pairwise_append.2 ⟨?_, ih hnd'.2, ?_⟩
    · refine (hp k).imp ?_
      intro p q hts hpq
      exact hts (congrArg Prod.snd hpq)
    · intro p hpk q hq hpq
      rcases List.mem_flatMap.1 hq with ⟨k', hk', hqk'⟩
      have h1 : p.mac = k := hf k p hpk
      have h2 : q.mac = k' := hf k' q hqk'
      have : k = k' := by
        have := congrArg Prod.fst hpq
        simpa [h1, h2] using this
      exact hnd'.1 (this ▸ hk')

/-- Upserting rows with pairwise-distinct keys into a table free of those
keys only appends: `INSERT OR REPLACE` never replaces. -/
theorem foldl_upsertMobile (rows : List MobileTrackPoint) :
    ∀ tbl : List MobileTrackPoint,
      (∀ t ∈ tbl, ∀ r ∈ rows, ¬ (t.mac = r.mac ∧ t.ts = r.ts)) →
      List.Pairwise (fun p q : MobileTrackPoint => (p.mac, p.ts) ≠ (q.mac, q.ts)) rows →
      rows.foldl upsertMobile tbl = tbl ++ rows := by
  induction rows with
  | nil => intro tbl _ _; simp
  | cons r rs ih =>
    intro tbl htbl hpw
    have hany : tbl.any (fun t => decide (t.mac = r.mac ∧ t.ts = r.ts)) = false := by
      rw [List.any_eq_false]
      intro t ht
      simp only [decide_eq_true_eq]
      exact htbl t ht r (List.mem_cons_self _ _)
    have hcond : ¬ (tbl.any (fun t => decide (t.mac = r.mac ∧ t.ts = r.ts)) = true) := by
      intro hc
      rw [hany] at hc
      exact Bool.false_ne_true hc
    have hup : upsertMobile tbl r = tbl ++ [r] := by
      rw [upsertMobile, if_neg hcond]
    rw [List.foldl_cons, hup, ih (tbl ++ [r]) ?_ (List.pairwise_cons.1 hpw).2]
    · simp
    · intro t ht x hx
      rcases List.mem_append.1 ht with ht' | ht'
      · exact htbl t ht' x (List.mem_cons_of_mem _ hx)
      · rcases List.mem_singleton.1 ht' with rfl
        intro ⟨hm, hts⟩
        exact (List.pairwise_cons.1 hpw).1 x hx (by rw [hm, hts])

/-- With `mobile_decim_t > 0` and `mobile_decim_d > max_speed_ms` (true of
both presets), each MAC's emitted track is strictly increasing in `ts`,
all `(mac, ts)` pairs in the mobile output are pairwise distinct, and the
`INSERT OR REPLACE` bulk insert therefore never replaces an emitted
point. -/
theorem C10_decimator_distinct_keys (cfg : ClassifierConfig) (dist : Dist)
    (wins : List Win) (hT : 0 < cfg.mobile_decim_t)
    (hD : cfg.max_speed_ms < cfg.mobile_decim_d)
    (hcoh : ∀ w ∈ wins, ∀ p ∈ w.points, p.mac = w.mac) :
    (∀ m, List.Chain' (fun p q : MobileTrackPoint => p.ts < q.ts)
        ((decimateMobile cfg dist wins).filter (fun r => decide (r.mac = m)))) ∧
    List.Pairwise (fun p q : MobileTrackPoint => (p.mac, p.ts) ≠ (q.mac, q.ts))
      (decimateMobile cfg dist wins) ∧
    (decimateMobile cfg dist wins).foldl upsertMobile [] = decimateMobile cfg dist wins := by
  have hpw : List.Pairwise (fun p q : MobileTrackPoint => (p.mac, p.ts) ≠ (q.mac, q.ts))
      (decimateMobile cfg dist wins) := by
    rw [decimateMobile]
    exact pairwise_flatMap_keys _ _ (firstKeys_nodup _) (macTrack_mac cfg dist wins hcoh)
      (fun k => chain'_lt_pairwise_ne _ (macTrack_chain_lt cfg dist wins hT hD k))
  refine ⟨?_, hpw, ?_⟩
  · intro m
    rw [decimateMobile, flatMap_filter_key _ _ m (firstKeys_nodup _)
          (macTrack_mac cfg dist wins hcoh)]
    split
    · exact macTrack_chain_lt cfg dist wins hT hD m
    · exact List.chain'_nil
  · exact foldl_upsertMobile _ [] (by simp) hpw

/-- C10 witness: the distinct-key property at a concrete two-point track
under the driving preset (`mobile_decim_t = 30 > 0`,
`mobile_decim_d = 100 > 500/9 = max_speed_ms`). -/
theorem C10_decimator_distinct_keys_witness :
    (∀ m, List.Chain' (fun p q : MobileTrackPoint => p.ts < q.ts)
        ((decimateMobile ClassifierConfig.driving (fun _ _ => 0)
            [⟨"CC", 0, 35, [⟨"CC", 0, 2, 2, -60⟩, ⟨"CC", 35, 2, 2, -60⟩]⟩]).filter
          (fun r => decide (r.mac = m)))) ∧
    List.Pairwise (fun p q : MobileTrackPoint => (p.mac, p.ts) ≠ (q.mac, q.ts))
      (decimateMobile ClassifierConfig.driving (fun _ _ => 0)
        [⟨"CC", 0, 35, [⟨"CC", 0, 2, 2, -60⟩, ⟨"CC", 35, 2, 2, -60⟩]⟩]) ∧
    (decimateMobile ClassifierConfig.driving (fun _ _ => 0)
        [⟨"CC", 0, 35, [⟨"CC", 0, 2, 2, -60⟩, ⟨"CC", 35, 2, 2, -60⟩]⟩]).foldl
      upsertMobile [] =
      decimateMobile ClassifierConfig.driving (fun _ _ => 0)
        [⟨"CC", 0, 35, [⟨"CC", 0, 2, 2, -60⟩, ⟨"CC", 35, 2, 2, -60⟩]⟩] :=
  C10_decimator_distinct_keys ClassifierConfig.driving (fun _ _ => 0)
    [⟨"CC", 0, 35, [⟨"CC", 0, 2, 2, -60⟩, ⟨"CC", 35, 2, 2, -60⟩]⟩]
    (by norm_num [ClassifierConfig.driving])
    (by norm_num [ClassifierConfig.driving])
    (by
      intro w hw p hp
      rcases List.mem_singleton.1 hw with rfl
      rcases List.mem_cons.1 hp with rfl | hp'
      · rfl
      · rcases List.mem_singleton.1 hp' with rfl
        rfl)

/-! ## C4: windowizer invariants -/

/-- In a `ts`-sorted list the head's timestamp bounds the last one. -/
theorem chain'_head_le_last (l : List Obs)
    (hl : List.Chain' (fun a b : Obs => a.ts ≤ b.ts) l) (x : Obs)
    (hx : l.getLast? = some x) : ∀ y ∈ l.head?, y.ts ≤ x.ts := by
  induction l with
  | nil => cases hx
  | cons a t ih =>
    intro y hy
    cases hy
    cases t with
    | nil =>
      cases hx
      exact le_refl _
    | cons b t' =>
      rw [List.getLast?_cons_cons] at hx
      have hab : a.ts ≤ b.ts := (List.chain'_cons.1 hl).1
      have hbt := ih (List.chain'_cons.1 hl).2 hx
      exact le_trans hab (hbt b rfl)

/-- Master invariant of the windowizer walk.  Given a sorted tail, a
non-empty current buffer ending in `prev` whose internal gaps are below
the threshold: every emitted buffer is non-empty, long enough, sorted,
gap-bounded and drawn from the input; consecutive emitted buffers are
separated by at least the threshold; and the first emitted buffer starts
no earlier than the current buffer does. -/
theorem winWalk_spec (tmax : Int) (minLen : Nat) :
    ∀ (rest : List Obs) (prev : Obs) (cur : List Obs),
      cur ≠ [] →
      cur.getLast? = some prev →
      List.Chain' (fun a b : Obs => a.ts ≤ b.ts) (cur ++ rest) →
      List.Chain' (fun a b : Obs => b.ts - a.ts < tmax) cur →
      (∀ c ∈ winWalk tmax minLen prev cur rest,
        c ≠ [] ∧ minLen ≤ c.length ∧
        List.Chain' (fun a b : Obs => a.ts ≤ b.ts) c ∧
        List.Chain' (fun a b : Obs => b.ts - a.ts < tmax) c ∧
        (∀ p ∈ c, p ∈ cur ∨ p ∈ rest)) ∧
      List.Chain' (fun c1 c2 : List Obs => tmax ≤ headTs c2 - lastTs c1)
        (winWalk tmax minLen prev cur rest) ∧
      (∀ c, (winWalk tmax minLen prev cur rest).head? = some c →
        headTs cur ≤ headTs c) := by
  intro rest
  induction rest with
  | nil =>
    intro prev cur hne hlast hsort hgap
    rw [winWalk]
    by_cases hlen : minLen ≤ cur.length
    · rw [if_pos hlen]
      refine ⟨?_, ?_, ?_⟩
      · intro c hc
        rcases List.mem_singleton.1 hc with rfl
        rw [List.append_nil] at hsort
        exact ⟨hne, hlen, hsort, hgap, fun p hp => Or.inl hp⟩
      · simp
      · intro c hc
        cases hc
        exact le_refl _
    · rw [if_neg hlen]
      exact ⟨fun c hc => absurd hc (List.not_mem_nil c), List.chain'_nil, fun c hc => by cases hc⟩
  | cons curr rest' ih =>
    intro prev cur hne hlast hsort hgap
    have hsplit := List.chain'_append.1 hsort
    have hcur_sorted : List.Chain' (fun a b : Obs => a.ts ≤ b.ts) cur := hsplit.1
    have htail_sorted : List.Chain' (fun a b : Obs => a.ts ≤ b.ts) (curr :: rest') := hsplit.2.1
    have hlink : prev.ts ≤ curr.ts := hsplit.2.2 prev hlast curr rfl
    rw [winWalk]
    by_cases hcut : tmax ≤ curr.ts - prev.ts
    · rw [if_pos hcut]
      have hih := ih curr [curr] (by simp) (by simp)
        (by simpa using htail_sorted) (by simp)
      rcases hih with ⟨hchunks, hchain, hhead⟩
      by_cases hlen : minLen ≤ cur.length
      · rw [if_pos hlen]
        refine ⟨?_, ?_, ?_⟩
        · intro c hc
          rcases List.mem_append.1 hc with hc' | hc'
          · rcases List.mem_singleton.1 hc' with rfl
            exact ⟨hne, hlen, hcur_sorted, hgap, fun p hp => Or.inl hp⟩
          · rcases hchunks c hc' with ⟨h1, h2, h3, h4, h5⟩
            refine ⟨h1, h2, h3, h4, fun p hp => ?_⟩
            rcases h5 p hp with hp' | hp'
            · exact Or.inr (by simpa using Or.inl (List.mem_singleton.1 hp'))
            · exact Or.inr (List.mem_cons_of_mem _ hp')
        · rw [List.singleton_append]
          refine List.chain'_cons'.2 ⟨?_, hchain⟩
          intro c2 hc2
          have h1 : curr.ts ≤ headTs c2 := by
            have := hhead c2 hc2
            simpa [headTs] using this
          have h2 : lastTs cur = prev.ts := by simp [lastTs, hlast]
          rw [h2]
          omega
        · intro c hc
          rw [List.singleton_append] at hc
          cases hc
          exact le_refl _
      · rw [if_neg hlen, List.nil_append]
        refine ⟨?_, hchain, ?_⟩
        · intro c hc
          rcases hchunks c hc with ⟨h1, h2, h3, h4, h5⟩
          refine ⟨h1, h2, h3, h4, fun p hp => ?_⟩
          rcases h5 p hp with hp' | hp'
          · exact Or.inr (by simpa using Or.inl (List.mem_singleton.1 hp'))
          · exact Or.inr (List.mem_cons_of_mem _ hp')
        · intro c hc
          have h1 : curr.ts ≤ headTs c := by
            have := hhead c hc
            simpa [headTs] using this
          have h2 : headTs cur ≤ prev.ts := by
            cases cur with
            | nil => exact absurd rfl hne
            | cons a t =>
              have := chain'_head_le_last (a :: t) hcur_sorted prev hlast a rfl
              simpa [headTs] using this
          omega
    · rw [if_neg hcut]
      have hsort' : List.Chain' (fun a b : Obs => a.ts ≤ b.ts) ((cur ++ [curr]) ++ rest') := by
        rw [List.append_assoc, List.singleton_append]
        exact hsort
      have hgap' : List.Chain' (fun a b : Obs => b.ts - a.ts < tmax) (cur ++ [curr]) := by
        refine List.chain'_append.2 ⟨hgap, List.chain'_singleton _, ?_⟩
        intro x hx y hy
        rw [hlast] at hx
        cases hx
        cases hy
        omega
      have hih := ih curr (cur ++ [curr]) (by simp) (by simp) hsort' hgap'
      rcases hih with ⟨hchunks, hchain, hhead⟩
      refine ⟨?_, hchain, ?_⟩
      · intro c hc
        rcases hchunks c hc with ⟨h1, h2, h3, h4, h5⟩
        refine ⟨h1, h2, h3, h4, fun p hp => ?_⟩
        rcases h5 p hp with hp' | hp'
        · rcases List.mem_append.1 hp' with hp'' | hp''
          · exact Or.inl hp''
          · exact Or.inr (by simpa using Or.inl (List.mem_singleton.1 hp''))
        · exact Or.inr (List.mem_cons_of_mem _ hp')
      · intro c hc
        have h1 : headTs (cur ++ [curr]) ≤ headTs c := hhead c hc
        have h2 : headTs (cur ++ [curr]) = headTs cur := by
          cases cur with
          | nil => exact absurd rfl hne
          | cons a t => simp [headTs]
        rw [h2] at h1
        exact h1

/-- The per-MAC windowizer output: every window is long enough, sorted,
gap-bounded, labelled `m`, drawn from the input, with `ts_start`/`ts_end`
taken from its first/last point; and consecutive windows of the MAC are
separated by at least the threshold. -/
theorem windowizeMac_spec (cfg : ClassifierConfig) (m : String) (ptsIn : List Obs) :
    (∀ w ∈ windowizeMac cfg m ptsIn,
      w.mac = m ∧ w.points ≠ [] ∧ cfg.min_window_len ≤ w.points.length ∧
      List.Chain' (fun a b : Obs => a.ts ≤ b.ts) w.points ∧
      List.Chain' (fun a b : Obs => b.ts - a.ts < cfg.t_max_gap) w.points ∧
      (∀ p ∈ w.points, p ∈ ptsIn) ∧
      w.ts_start = headTs w.points ∧ w.ts_end = lastTs w.points) ∧
    List.Chain' (fun w1 w2 : Win => cfg.t_max_gap ≤ w2.ts_start - w1.ts_end)
      (windowizeMac cfg m ptsIn) := by
  rw [windowizeMac]
  cases hs : sortByTs ptsIn with
  | nil =>
    exact ⟨fun w hw => absurd hw (List.not_mem_nil w), List.chain'_nil⟩
  | cons p rest =>
    have hsorted : List.Chain' (fun a b : Obs => a.ts ≤ b.ts) (p :: rest) := by
      rw [← hs]; exact sortByTs_chain ptsIn
    have hspec := winWalk_spec cfg.t_max_gap cfg.min_window_len rest p [p]
      (by simp) (by simp) (by simpa using hsorted) (by simp)
    rcases hspec with ⟨hchunks, hchain, _⟩
    constructor
    · intro w hw
      rcases List.mem_map.1 hw with ⟨c, hc, rfl⟩
      rcases hchunks c hc with ⟨h1, h2, h3, h4, h5⟩
      refine ⟨rfl, h1, h2, h3, h4, ?_, rfl, rfl⟩
      intro q hq
      have hq' : q ∈ p :: rest := by
        rcases h5 q hq with h | h
        · simpa using Or.inl (List.mem_singleton.1 h)
        · exact List.mem_cons_of_mem _ h
      rw [← hs] at hq'
      exact (sortByTs_perm ptsIn).mem_iff.1 hq'
    · rw [List.chain'_map]
      exact hchain

/-- Every window of `_windowize` holds only observations of its MAC,
sorted non-decreasingly in `ts` with consecutive gaps strictly below
`t_max_gap`, and is emitted only with at least `min_window_len` points;
consecutive windows of one MAC are separated by at least `t_max_gap`; and
with the driving defaults two observations 119 s apart give one window
while 121 s apart give two. -/
theorem C4_windowizer (cfg : ClassifierConfig) (obs : List Obs) :
    (∀ w ∈ windowize cfg obs,
      (∀ p ∈ w.points, p.mac = w.mac) ∧
      w.points ≠ [] ∧
      cfg.min_window_len ≤ w.points.length ∧
      List.Chain' (fun a b : Obs => a.ts ≤ b.ts) w.points ∧
      List.Chain' (fun a b : Obs => b.ts - a.ts < cfg.t_max_gap) w.points) ∧
    (∀ m, List.Chain' (fun w1 w2 : Win => cfg.t_max_gap ≤ w2.ts_start - w1.ts_end)
      (windowizeMac cfg m (obs.filter (fun o => decide (o.mac = m))))) ∧
    (windowize ClassifierConfig.driving
      [⟨"AA", 0, 0, 0, -50⟩, ⟨"AA", 119, 0, 0, -50⟩]).length = 1 ∧
    (windowize ClassifierConfig.driving
      [⟨"AA", 0, 0, 0, -50⟩, ⟨"AA", 121, 0, 0, -50⟩]).length = 2 := by
  refine ⟨?_, ?_, ?_, ?_⟩
  · intro w hw
    rw [windowize] at hw
    rcases List.mem_flatMap.1 hw with ⟨m, _, hwm⟩
    rcases (windowizeMac_spec cfg m _).1 w hwm with ⟨hmac, h1, h2, h3, h4, h5, _, _⟩
    refine ⟨?_, h1, h2, h3, h4⟩
    intro p hp
    have := List.mem_filter.1 (h5 p hp)
    rw [hmac]
    exact of_decide_eq_true this.2
  · intro m
    exact (windowizeMac_spec cfg m _).2
  · norm_num [windowize, firstKeys, windowizeMac, sortByTs, insertByTs, winWalk,
      ClassifierConfig.driving, List.filter]
  · norm_num [windowize, firstKeys, windowizeMac, sortByTs, insertByTs, winWalk,
      ClassifierConfig.driving, List.filter]

/-- C4 witness: the per-window invariants at a concrete two-observation
batch that splits into two windows. -/
theorem C4_windowizer_witness :
    (∀ p ∈ (⟨"AA", 0, 0, [⟨"AA", 0, 0, 0, -50⟩]⟩ : Win).points,
      p.mac = (⟨"AA", 0, 0, [⟨"AA", 0, 0, 0, -50⟩]⟩ : Win).mac) ∧
    (⟨"AA", 0, 0, [⟨"AA", 0, 0, 0, -50⟩]⟩ : Win).points ≠ [] ∧
    ClassifierConfig.driving.min_window_len ≤
      (⟨"AA", 0, 0, [⟨"AA", 0, 0, 0, -50⟩]⟩ : Win).points.length ∧
    List.Chain' (fun a b : Obs => a.ts ≤ b.ts)
      (⟨"AA", 0, 0, [⟨"AA", 0, 0, 0, -50⟩]⟩ : Win).points ∧
    List.Chain' (fun a b : Obs => b.ts - a.ts < ClassifierConfig.driving.t_max_gap)
      (⟨"AA", 0, 0, [⟨"AA", 0, 0, 0, -50⟩]⟩ : Win).points :=
  (C4_windowizer ClassifierConfig.driving
      [⟨"AA", 0, 0, 0, -50⟩, ⟨"AA", 121, 0, 0, -50⟩]).1
    ⟨"AA", 0, 0, [⟨"AA", 0, 0, 0, -50⟩]⟩
    (by
      norm_num [windowize, firstKeys, windowizeMac, sortByTs, insertByTs, winWalk,
        ClassifierConfig.driving, List.filter, toWin, headTs, lastTs])

/-! ## C8: static-AP coverage aggregates -/

/-- A successful `collectE` run relates inputs and outputs pointwise. -/
theorem collectE_ok_forall2 {α β ε : Type} (f : α → Except ε β) :
    ∀ (l : List α) (bs : List β), collectE f l = .ok bs →
      List.Forall₂ (fun a b => f a = .ok b) l bs := by
  intro l
  induction l with
  | nil =>
    intro bs h
    rw [collectE] at h
    cases h
    exact List.Forall₂.nil
  | cons a as ih =>
    intro bs h
    rw [collectE] at h
    cases hfa : f a with
    | error e => rw [hfa] at h; cases h
    | ok b =>
      rw [hfa] at h
      cases hrec : collectE f as with
      | error e => rw [hrec] at h; cases h
      | ok bs' =>
        rw [hrec] at h
        cases h
        exact List.Forall₂.cons hfa (ih bs' hrec)

/-- A pointwise relation lets every right member be traced to a left one. -/
theorem forall2_mem_exists {α β : Type} (R : α → β → Prop) :
    ∀ (l : List α) (bs : List β), List.Forall₂ R l bs → ∀ b ∈ bs, ∃ a ∈ l, R a b := by
  intro l bs h
  induction h with
  | nil => intro b hb; cases hb
  | cons hab _ ih =>
    intro b hb
    rcases List.mem_cons.1 hb with rfl | hb'
    · exact ⟨_, List.mem_cons_self _ _, hab⟩
    · rcases ih b hb' with ⟨a, ha, hfa⟩
      exact ⟨a, List.mem_cons_of_mem _ ha, hfa⟩

/-- Every output of a successful `collectE` run comes from some input. -/
theorem collectE_ok_mem {α β ε : Type} (f : α → Except ε β) (l : List α)
    (bs : List β) (h : collectE f l = .ok bs) : ∀ b ∈ bs, ∃ a ∈ l, f a = .ok b :=
  forall2_mem_exists _ l bs (collectE_ok_forall2 f l bs h)

/-- What a successful per-window summary guarantees: nonzero total
weight (hence a non-empty window) and the recorded span and count. -/
theorem summarizeWin_ok (wfun : ℚ → ℚ) (w : Win) (s : WinSummary)
    (h : summarizeWin wfun w = .ok s) :
    winTotW wfun w ≠ 0 ∧ w.points ≠ [] ∧ s.totW = winTotW wfun w ∧
    s.ts0 = w.ts_start ∧ s.ts1 = w.ts_end ∧ s.n = w.points.length := by
  rw [summarizeWin] at h
  by_cases h0 : winTotW wfun w = 0
  · rw [if_pos h0] at h; cases h
  · rw [if_neg h0] at h
    cases h
    refine ⟨h0, ?_, rfl, rfl, rfl, rfl⟩
    intro hnil
    exact h0 (by rw [winTotW, hnil]; rfl)

/-- Filtering a MAC-tagged pointwise relation by one MAC keeps it
pointwise. -/
theorem forall2_filter_snd (Q : Win → WinSummary → Prop) (m : String) :
    ∀ (ws : List Win) (ss : List (String × WinSummary)),
      List.Forall₂ (fun w s => s.1 = w.mac ∧ Q w s.2) ws ss →
      List.Forall₂ Q (ws.filter (fun w => decide (w.mac = m)))
        ((ss.filter (fun s => decide (s.1 = m))).map (fun s => s.2)) := by
  intro ws ss h
  induction h with
  | nil => exact List.Forall₂.nil
  | @cons w s ws' ss' hws _ ih =>
    rcases hws with ⟨hmac, hq⟩
    rw [List.filter_cons, List.filter_cons]
    by_cases hm : w.mac = m
    · rw [if_pos (by simp [hm]), if_pos (by simp [hmac, hm])]
      exact List.Forall₂.cons hq ih
    · rw [if_neg (by simp [hm]), if_neg (by simp [hmac, hm])]
      exact ih

/-- A pointwise projection equality gives equal mapped lists. -/
theorem forall2_map_eq {α β γ : Type} (g : β → γ) (h : α → γ) :
    ∀ (ws : List α) (ss : List β), List.Forall₂ (fun w s => g s = h w) ws ss →
      ss.map g = ws.map h := by
  intro ws ss hf
  induction hf with
  | nil => rfl
  | cons h1 _ ih => simp [ih, h1]

/-- `minListI` bounds every member from below. -/
theorem minListI_le (l : List Int) (x : Int) (hx : x ∈ l) : minListI l ≤ x := by
  have key : ∀ (t : List Int) (a : Int), t.foldl min a ≤ a ∧ ∀ y ∈ t, t.foldl min a ≤ y := by
    intro t
    induction t with
    | nil => intro a; exact ⟨le_refl a, fun y hy => absurd hy (List.not_mem_nil y)⟩
    | cons b t' ih =>
      intro a
      have h1 := ih (min a b)
      refine ⟨le_trans h1.1 (min_le_left a b), ?_⟩
      intro y hy
      rcases List.mem_cons.1 hy with rfl | hy'
      · exact le_trans h1.1 (min_le_right a y)
      · exact h1.2 y hy'
  cases l with
  | nil => cases hx
  | cons a t =>
    rw [minListI]
    rcases List.mem_cons.1 hx with rfl | hx'
    · exact (key t x).1
    · exact (key t a).2 x hx'

/-- `maxListI` bounds every member from above. -/
theorem le_maxListI (l : List Int) (x : Int) (hx : x ∈ l) : x ≤ maxListI l := by
  have key : ∀ (t : List Int) (a : Int), a ≤ t.foldl max a ∧ ∀ y ∈ t, y ≤ t.foldl max a := by
    intro t
    induction t with
    | nil => intro a; exact ⟨le_refl a, fun y hy => absurd hy (List.not_mem_nil y)⟩
    | cons b t' ih =>
      intro a
      have h1 := ih (max a b)
      refine ⟨le_trans (le_max_left a b) h1.1, ?_⟩
      intro y hy
      rcases List.mem_cons.1 hy with rfl | hy'
      · exact le_trans (le_max_right a y) h1.1
      · exact h1.2 y hy'
  cases l with
  | nil => cases hx
  | cons a t =>
    rw [maxListI]
    rcases List.mem_cons.1 hx with rfl | hx'
    · exact (key t x).1
    · exact (key t a).2 x hx'

/-- A successful per-MAC aggregation pins down every row field. -/
theorem aggMacRow_ok (dist : Dist) (fuel : Nat) (m : String) (ss : List WinSummary)
    (row : StaticRow) (h : aggMacRow dist fuel m ss = .ok row) :
    ∃ med, geometricMedian dist fuel (ss.map (fun s => s.center))
        (ss.map (fun s => s.totW)) = .ok med ∧
      row = { mac := m, lat_mean := med.1, lon_mean := med.2,
              loc_error_m :=
                (((ss.map (fun s => s.totW)).zip
                    (ss.map (fun s => dist med s.center))).map
                  (fun we => we.1 * we.2)).sum / (ss.map (fun s => s.totW)).sum,
              first_seen := minListI (ss.map (fun s => s.ts0)),
              last_seen := maxListI (ss.map (fun s => s.ts1)),
              n_obs := (ss.map (fun s => s.n)).sum } := by
  rw [aggMacRow] at h
  cases hgm : geometricMedian dist fuel (ss.map (fun s => s.center))
      (ss.map (fun s => s.totW)) with
  | error e => rw [hgm] at h; cases h
  | ok med =>
    rw [hgm] at h
    cases h
    exact ⟨med, rfl, rfl⟩

/-- A successful `geometric_median` run means the weights did not sum to
zero. -/
theorem geometricMedian_ok_sum_ne (dist : Dist) (fuel : Nat) (pts : List (ℚ × ℚ))
    (ws : List ℚ) (x : ℚ × ℚ) (h : geometricMedian dist fuel pts ws = .ok x) :
    ws.sum ≠ 0 := by
  intro h0
  rw [geometricMedian, if_pos h0] at h
  cases h

/-- A pointwise relation lets every left member be traced to a right one. -/
theorem forall2_mem_exists_left {α β : Type} (R : α → β → Prop) :
    ∀ (l : List α) (bs : List β), List.Forall₂ R l bs → ∀ a ∈ l, ∃ b ∈ bs, R a b := by
  intro l bs h
  induction h with
  | nil => intro a ha; cases ha
  | cons hab _ ih =>
    intro a ha
    rcases List.mem_cons.1 ha with rfl | ha'
    · exact ⟨_, List.mem_cons_self _ _, hab⟩
    · rcases ih a ha' with ⟨b, hb, hr⟩
      exact ⟨b, List.mem_cons_of_mem _ hb, hr⟩

/-- A member of a list of naturals bounds the list sum from below. -/
theorem nat_mem_le_sum (l : List Nat) (x : Nat) (hx : x ∈ l) : x ≤ l.sum := by
  induction l with
  | nil => cases hx
  | cons a t ih =>
    rw [List.sum_cons]
    rcases List.mem_cons.1 hx with rfl | hx'
    · exact Nat.le_add_right x t.sum
    · exact le_trans (ih hx') (Nat.le_add_left t.sum a)

/-- The total window weight is non-negative for a non-negative weight map. -/
theorem winTotW_nonneg (wfun : ℚ → ℚ) (hwf : ∀ r, 0 ≤ wfun r) (w : Win) :
    0 ≤ winTotW wfun w := by
  refine List.sum_nonneg ?_
  intro x hx
  rcases List.mem_map.1 hx with ⟨p, _, rfl⟩
  exact hwf p.rssi

/-- Every emitted `StaticAP` row aggregates its MAC's stationary windows:
`first_seen` is the minimum `ts_start`, `last_seen` the maximum `ts_end`,
`n_obs` the total point count; and `loc_error_m ≥ 0`,
`first_seen ≤ last_seen`, `n_obs ≥ 1`. -/
theorem C8_static_row_aggregates (dist : Dist) (wfun : ℚ → ℚ) (fuel : Nat)
    (statWins : List Win) (rows : List StaticRow)
    (hwf : ∀ r, 0 ≤ wfun r) (hdist : ∀ u v, 0 ≤ dist u v)
    (hts : ∀ w ∈ statWins, w.ts_start ≤ w.ts_end)
    (hok : aggregateStatic dist wfun fuel statWins = .ok rows) :
    ∀ row ∈ rows,
      row.first_seen = minListI ((statWins.filter
          (fun w => decide (w.mac = row.mac))).map (fun w => w.ts_start)) ∧
      row.last_seen = maxListI ((statWins.filter
          (fun w => decide (w.mac = row.mac))).map (fun w => w.ts_end)) ∧
      row.n_obs = ((statWins.filter
          (fun w => decide (w.mac = row.mac))).map (fun w => w.points.length)).sum ∧
      0 ≤ row.loc_error_m ∧ row.first_seen ≤ row.last_seen ∧ 1 ≤ row.n_obs := by
  intro row hrow
  rw [aggregateStatic] at hok
  cases h1 : collectE (fun w => (summarizeWin wfun w).map (fun s => (w.mac, s))) statWins with
  | error e => rw [h1] at hok; cases hok
  | ok sums =>
    rw [h1] at hok
    have hfa : List.Forall₂
        (fun w s => (summarizeWin wfun w).map (fun s' => (w.mac, s')) = .ok s)
        statWins sums :=
      collectE_ok_forall2 _ statWins sums h1
    have hfa2 : List.Forall₂ (fun (w : Win) (s : String × WinSummary) =>
        s.1 = w.mac ∧ (s.2.totW = winTotW wfun w ∧ s.2.ts0 = w.ts_start ∧
          s.2.ts1 = w.ts_end ∧ s.2.n = w.points.length ∧ w.points ≠ [])) statWins sums := by
      refine hfa.imp ?_
      intro w s hws
      cases hsum : summarizeWin wfun w with
      | error e => rw [hsum] at hws; cases hws
      | ok s' =>
        rw [hsum] at hws
        simp only [Except.map, Except.ok.injEq] at hws
        rcases summarizeWin_ok wfun w s' hsum with ⟨_, hnil, htw, h0, hl1, hn⟩
        rw [← hws]
        exact ⟨rfl, htw, h0, hl1, hn, hnil⟩
    rcases collectE_ok_mem _ _ _ hok row hrow with ⟨m, hm, hrowok⟩
    rcases aggMacRow_ok dist fuel m _ row hrowok with ⟨med, hgm, hroweq⟩
    have hfam := forall2_filter_snd
      (fun w s2 => s2.totW = winTotW wfun w ∧ s2.ts0 = w.ts_start ∧
        s2.ts1 = w.ts_end ∧ s2.n = w.points.length ∧ w.points ≠ [])
      m statWins sums hfa2
    have hts0 : ((sums.filter (fun s => decide (s.1 = m))).map (fun s => s.2)).map
        (fun s => s.ts0) =
        (statWins.filter (fun w => decide (w.mac = m))).map (fun w => w.ts_start) :=
      forall2_map_eq _ _ _ _ (hfam.imp (fun _ _ h => h.2.1))
    have hts1 : ((sums.filter (fun s => decide (s.1 = m))).map (fun s => s.2)).map
        (fun s => s.ts1) =
        (statWins.filter (fun w => decide (w.mac = m))).map (fun w => w.ts_end) :=
      forall2_map_eq _ _ _ _ (hfam.imp (fun _ _ h => h.2.2.1))
    have hns : ((sums.filter (fun s => decide (s.1 = m))).map (fun s => s.2)).map
        (fun s => s.n) =
        (statWins.filter (fun w => decide (w.mac = m))).map (fun w => w.points.length) :=
      forall2_map_eq _ _ _ _ (hfam.imp (fun _ _ h => h.2.2.2.1))
    have hrowmac : row.mac = m := by rw [hroweq]
    -- the MAC has at least one stationary window
    have hmem : ∃ w0, w0 ∈ statWins.filter (fun w => decide (w.mac = m)) := by
      have hm2 : m ∈ statWins.map (fun w => w.mac) :=
        (mem_firstKeys m _).1 hm
      rcases List.mem_map.1 hm2 with ⟨w0, hw0, hmac0⟩
      exact ⟨w0, List.mem_filter.2 ⟨hw0, by simp [hmac0]⟩⟩
    rcases hmem with ⟨w0, hw0f⟩
    have hw0 : w0 ∈ statWins := (List.mem_filter.1 hw0f).1
    have hw0nil : w0.points ≠ [] := by
      rcases forall2_mem_exists_left _ _ _ hfam w0 hw0f with ⟨s0, _, hq⟩
      exact hq.2.2.2.2
    rw [hroweq]
    simp only [hrowmac]
    refine ⟨by rw [hts0], by rw [hts1], by rw [hns], ?_, ?_, ?_⟩
    · -- loc_error_m ≥ 0
      refine div_nonneg ?_ ?_
      · refine List.sum_nonneg ?_
        intro x hx
        rcases List.mem_map.1 hx with ⟨⟨a, b⟩, hab, rfl⟩
        have hmem2 := List.of_mem_zip hab
        have ha : 0 ≤ a := by
          rcases List.mem_map.1 hmem2.1 with ⟨s, hs, rfl⟩
          rcases forall2_mem_exists _ _ _ hfam s hs with ⟨w, _, hq⟩
          rw [hq.1]
          exact winTotW_nonneg wfun hwf w
        have hb : 0 ≤ b := by
          rcases List.mem_map.1 hmem2.2 with ⟨s, _, rfl⟩
          exact hdist _ _
        exact mul_nonneg ha hb
      · refine List.sum_nonneg ?_
        intro x hx
        rcases List.mem_map.1 hx with ⟨s, hs, rfl⟩
        rcases forall2_mem_exists _ _ _ hfam s hs with ⟨w, _, hq⟩
        rw [hq.1]
        exact winTotW_nonneg wfun hwf w
    · -- first_seen ≤ last_seen
      rw [hts0, hts1]
      have hmin : minListI ((statWins.filter (fun w => decide (w.mac = m))).map
          (fun w => w.ts_start)) ≤ w0.ts_start :=
        minListI_le _ _ (List.mem_map.2 ⟨w0, hw0f, rfl⟩)
      have hmax : w0.ts_end ≤ maxListI ((statWins.filter (fun w => decide (w.mac = m))).map
          (fun w => w.ts_end)) :=
        le_maxListI _ _ (List.mem_map.2 ⟨w0, hw0f, rfl⟩)
      exact le_trans hmin (le_trans (hts w0 hw0) hmax)
    · -- n_obs ≥ 1
      rw [hns]
      have h1len : 1 ≤ w0.points.length := List.length_pos.2 hw0nil
      exact le_trans h1len (nat_mem_le_sum _ _ (List.mem_map.2 ⟨w0, hw0f, rfl⟩))

/-- C8 witness: the aggregates at a concrete one-window batch (constant
weight 1, zero metric): the emitted row is exactly
`("AA", 0, 0, 0, 1000, 1000, 1)`. -/
theorem C8_static_row_aggregates_witness :
    (⟨"AA", 0, 0, 0, 1000, 1000, 1⟩ : StaticRow).first_seen =
      minListI (([⟨"AA", 1000, 1000, [⟨"AA", 1000, 0, 0, -50⟩]⟩] : List Win).filter
          (fun w => decide (w.mac = (⟨"AA", 0, 0, 0, 1000, 1000, 1⟩ : StaticRow).mac))
        |>.map (fun w => w.ts_start)) ∧
    (⟨"AA", 0, 0, 0, 1000, 1000, 1⟩ : StaticRow).last_seen =
      maxListI (([⟨"AA", 1000, 1000, [⟨"AA", 1000, 0, 0, -50⟩]⟩] : List Win).filter
          (fun w => decide (w.mac = (⟨"AA", 0, 0, 0, 1000, 1000, 1⟩ : StaticRow).mac))
        |>.map (fun w => w.ts_end)) ∧
    (⟨"AA", 0, 0, 0, 1000, 1000, 1⟩ : StaticRow).n_obs =
      ((([⟨"AA", 1000, 1000, [⟨"AA", 1000, 0, 0, -50⟩]⟩] : List Win).filter
          (fun w => decide (w.mac = (⟨"AA", 0, 0, 0, 1000, 1000, 1⟩ : StaticRow).mac))
        |>.map (fun w => w.points.length)).sum) ∧
    0 ≤ (⟨"AA", 0, 0, 0, 1000, 1000, 1⟩ : StaticRow).loc_error_m ∧
    (⟨"AA", 0, 0, 0, 1000, 1000, 1⟩ : StaticRow).first_seen ≤
      (⟨"AA", 0, 0, 0, 1000, 1000, 1⟩ : StaticRow).last_seen ∧
    1 ≤ (⟨"AA", 0, 0, 0, 1000, 1000, 1⟩ : StaticRow).n_obs :=
  C8_static_row_aggregates (fun _ _ => 0) (fun _ => 1) 1
    [⟨"AA", 1000, 1000, [⟨"AA", 1000, 0, 0, -50⟩]⟩]
    [⟨"AA", 0, 0, 0, 1000, 1000, 1⟩]
    (fun _ => by norm_num) (fun _ _ => by norm_num)
    (by intro w hw; rcases List.mem_singleton.1 hw with rfl; exact le_refl _)
    (by
      norm_num [aggregateStatic, collectE, summarizeWin, winTotW, firstKeys,
        aggMacRow, geometricMedian, gmStart, gmLoop, gmDenom, gmNext, qeps, qclamp,
        minListI, maxListI, Except.map, List.filter])
    ⟨"AA", 0, 0, 0, 1000, 1000, 1⟩ (List.mem_singleton.2 rfl)

/-! ## C9: invariance under a constant RSSI offset

Adding `Δ` to every observation's `rssi` only changes the `rssi` fields
carried through the pipeline; timestamps, coordinates and MACs are
untouched, so windowizing, splitting and decimation commute with the
shift, and the static aggregation sees every weight multiplied by the
common factor `c = 10^(Δ/10)` (hypothesis `hw` below), under which the
weighted centroid, the Weiszfeld iteration and the weighted location
error are invariant. -/

/-- Add a constant offset to an observation's RSSI. -/
def shiftRssi (d : ℚ) (o : Obs) : Obs := { o with rssi := o.rssi + d }

/-- Add a constant offset to the RSSI of every point of a window. -/
def shiftWin (d : ℚ) (w : Win) : Win := { w with points := w.points.map (shiftRssi d) }

/-- The shift keeps the MAC. -/
@[simp] theorem shiftRssi_mac (d : ℚ) (o : Obs) : (shiftRssi d o).mac = o.mac := rfl

/-- The shift keeps the timestamp. -/
@[simp] theorem shiftRssi_ts (d : ℚ) (o : Obs) : (shiftRssi d o).ts = o.ts := rfl

/-- The shift keeps the latitude. -/
@[simp] theorem shiftRssi_lat (d : ℚ) (o : Obs) : (shiftRssi d o).lat = o.lat := rfl

/-- The shift keeps the longitude. -/
@[simp] theorem shiftRssi_lon (d : ℚ) (o : Obs) : (shiftRssi d o).lon = o.lon := rfl

/-- Sorted insertion ignores RSSI. -/
theorem insertByTs_shift (d : ℚ) (o : Obs) (l : List Obs) :
    insertByTs (shiftRssi d o) (l.map (shiftRssi d)) = (insertByTs o l).map (shiftRssi d) := by
  induction l with
  | nil => rfl
  | cons x xs ih =>
    rw [List.map_cons, insertByTs, insertByTs]
    simp only [shiftRssi_ts]
    by_cases h : o.ts ≤ x.ts
    · rw [if_pos h, if_pos h]
      rfl
    · rw [if_neg h, if_neg h, List.map_cons, ih]

/-- The stable sort ignores RSSI. -/
theorem sortByTs_shift (d : ℚ) (l : List Obs) :
    sortByTs (l.map (shiftRssi d)) = (sortByTs l).map (shiftRssi d) := by
  induction l with
  | nil => rfl
  | cons x xs ih =>
    rw [List.map_cons, sortByTs, List.foldr_cons]
    rw [sortByTs] at ih
    rw [ih]
    exact insertByTs_shift d x (sortByTs xs)

/-- The windowizer walk ignores RSSI. -/
theorem winWalk_shift (tmax : Int) (minLen : Nat) (d : ℚ) :
    ∀ (rest : List Obs) (prev : Obs) (cur : List Obs),
      winWalk tmax minLen (shiftRssi d prev) (cur.map (shiftRssi d))
        (rest.map (shiftRssi d)) =
      (winWalk tmax minLen prev cur rest).map (fun c => c.map (shiftRssi d)) := by
  intro rest
  induction rest with
  | nil =>
    intro prev cur
    rw [List.map_nil, winWalk, winWalk, List.length_map]
    by_cases h : minLen ≤ cur.length
    · rw [if_pos h, if_pos h]
      rfl
    · rw [if_neg h, if_neg h]
      rfl
  | cons curr rest' ih =>
    intro prev cur
    rw [List.map_cons, winWalk, winWalk]
    simp only [shiftRssi_ts, List.length_map]
    by_cases h : tmax ≤ curr.ts - prev.ts
    · rw [if_pos h, if_pos h]
      have h2 := ih curr [curr]
      rw [List.map_cons, List.map_nil] at h2
      rw [h2]
      by_cases hl : minLen ≤ cur.length
      · rw [if_pos hl, if_pos hl]
        rfl
      · rw [if_neg hl, if_neg hl]
        rfl
    · rw [if_neg h, if_neg h]
      have h2 := ih curr (cur ++ [curr])
      rw [List.map_append, List.map_cons, List.map_nil] at h2
      exact h2

/-- `toWin` after a shift is the shifted window. -/
theorem toWin_shift (d : ℚ) (m : String) (pts : List Obs) :
    toWin m (pts.map (shiftRssi d)) = shiftWin d (toWin m pts) := by
  rw [toWin, toWin, shiftWin]
  cases pts with
  | nil => rfl
  | cons p t =>
    simp only [headTs, lastTs, List.head?_map, List.getLast?_map, Option.map_map]
    rfl

/-- Windowizing a MAC commutes with the RSSI shift. -/
theorem windowizeMac_shift (cfg : ClassifierConfig) (d : ℚ) (m : String)
    (pts : List Obs) :
    windowizeMac cfg m (pts.map (shiftRssi d)) =
      (windowizeMac cfg m pts).map (shiftWin d) := by
  rw [windowizeMac, windowizeMac, sortByTs_shift]
  cases hs : sortByTs pts with
  | nil => rfl
  | cons p rest =>
    show ((winWalk cfg.t_max_gap cfg.min_window_len (shiftRssi d p)
        [shiftRssi d p] (rest.map (shiftRssi d))).map (toWin m)) =
      ((winWalk cfg.t_max_gap cfg.min_window_len p [p] rest).map (toWin m)).map (shiftWin d)
    have h1 := winWalk_shift cfg.t_max_gap cfg.min_window_len d rest p [p]
    rw [List.map_cons, List.map_nil] at h1
    rw [h1, List.map_map, List.map_map]
    refine List.map_congr_left ?_
    intro c _
    simp only [Function.comp]
    exact toWin_shift d m c

/-- Windowizing commutes with the RSSI shift. -/
theorem windowize_shift (cfg : ClassifierConfig) (d : ℚ) (obs : List Obs) :
    windowize cfg (obs.map (shiftRssi d)) = (windowize cfg obs).map (shiftWin d) := by
  rw [windowize, windowize]
  have hkeys : (obs.map (shiftRssi d)).map (fun o => o.mac) = obs.map (fun o => o.mac) := by
    rw [List.map_map]
    rfl
  rw [hkeys, List.map_flatMap]
  refine List.flatMap_congr ?_
  intro m _
  have hf : (obs.map (shiftRssi d)).filter (fun o => decide (o.mac = m)) =
      (obs.filter (fun o => decide (o.mac = m))).map (shiftRssi d) := by
    rw [List.filter_map]
    rfl
  rw [hf]
  exact windowizeMac_shift cfg d m _

/-- The window diameter ignores RSSI. -/
theorem winDiameter_shift (dist : Dist) (d : ℚ) (w : Win) :
    winDiameter dist (shiftWin d w) = winDiameter dist w := by
  rw [winDiameter, winDiameter, shiftWin]
  have hpairs : ∀ l : List Obs,
      pairsAfter (l.map (shiftRssi d)) =
        (pairsAfter l).map (fun ab => (shiftRssi d ab.1, shiftRssi d ab.2)) := by
    intro l
    induction l with
    | nil => rfl
    | cons a t ih =>
      rw [List.map_cons, pairsAfter, pairsAfter, ih, List.map_map, List.map_append,
        List.map_map]
      rfl
  show (pairsAfter ((w.points).map (shiftRssi d))).foldl _ 0 = _
  rw [hpairs, List.foldl_map]
  rfl

/-- The splitter commutes with the RSSI shift. -/
theorem splitStationary_shift (cfg : ClassifierConfig) (dist : Dist) (d : ℚ)
    (wins : List Win) :
    splitStationary cfg dist (wins.map (shiftWin d)) =
      ((splitStationary cfg dist wins).1.map (shiftWin d),
       (splitStationary cfg dist wins).2.map (shiftWin d)) := by
  rw [splitStationary_eq_filter, splitStationary_eq_filter, List.filter_map,
    List.filter_map]
  have h1 : ((fun w => decide (winDiameter dist w ≤ cfg.r_stationary)) ∘ shiftWin d) =
      (fun w => decide (winDiameter dist w ≤ cfg.r_stationary)) := by
    funext w
    simp [Function.comp, winDiameter_shift]
  have h2 : ((fun w => !decide (winDiameter dist w ≤ cfg.r_stationary)) ∘ shiftWin d) =
      (fun w => !decide (winDiameter dist w ≤ cfg.r_stationary)) := by
    funext w
    simp [Function.comp, winDiameter_shift]
  rw [h1, h2]

/-- The decimator loop ignores RSSI. -/
theorem decimateLoop_shift (cfg : ClassifierConfig) (dist : Dist) (d : ℚ) :
    ∀ (pts : List Obs) (last : Obs),
      decimateLoop cfg dist (shiftRssi d last) (pts.map (shiftRssi d)) =
        decimateLoop cfg dist last pts := by
  intro pts
  induction pts with
  | nil => intro last; rfl
  | cons curr rest ih =>
    intro last
    rw [List.map_cons, decimateLoop, decimateLoop]
    simp only [shiftRssi_ts, shiftRssi_lat, shiftRssi_lon, shiftRssi_mac]
    by_cases hkeep : cfg.mobile_decim_d ≤ dist (last.lat, last.lon) (curr.lat, curr.lon) ∨
        cfg.mobile_decim_t ≤ curr.ts - last.ts
    · rw [if_pos hkeep, if_pos hkeep]
      by_cases hs : dist (last.lat, last.lon) (curr.lat, curr.lon) /
          ((max (curr.ts - last.ts) 1 : Int) : ℚ) ≤ cfg.max_speed_ms
      · rw [if_pos hs, if_pos hs, ih curr]
      · rw [if_neg hs, if_neg hs, ih last]
    · rw [if_neg hkeep, if_neg hkeep, ih last]

/-- Decimating a track ignores RSSI. -/
theorem decimateTrack_shift (cfg : ClassifierConfig) (dist : Dist) (d : ℚ)
    (pts : List Obs) :
    decimateTrack cfg dist (pts.map (shiftRssi d)) = decimateTrack cfg dist pts := by
  cases pts with
  | nil => rfl
  | cons p rest =>
    rw [List.map_cons, decimateTrack, decimateTrack, decimateLoop_shift]
    rfl

/-- The per-MAC mobile track ignores RSSI. -/
theorem macTrack_shift (cfg : ClassifierConfig) (dist : Dist) (d : ℚ)
    (wins : List Win) (m : String) :
    macTrack cfg dist (wins.map (shiftWin d)) m = macTrack cfg dist wins m := by
  have hpts : (((wins.map (shiftWin d)).filter (fun w => decide (w.mac = m))).flatMap
        (fun w => w.points)) =
      ((wins.filter (fun w => decide (w.mac = m))).flatMap (fun w => w.points)).map
        (shiftRssi d) := by
    rw [List.filter_map]
    show ((wins.filter ((fun w => decide (w.mac = m)) ∘ shiftWin d)).map
        (shiftWin d)).flatMap (fun w => w.points) = _
    rw [List.flatMap_map, List.map_flatMap]
    rfl
  rw [macTrack, macTrack, hpts, sortByTs_shift, decimateTrack_shift]

/-- The mobile decimator is unchanged by the RSSI shift. -/
theorem decimateMobile_shift (cfg : ClassifierConfig) (dist : Dist) (d : ℚ)
    (wins : List Win) :
    decimateMobile cfg dist (wins.map (shiftWin d)) = decimateMobile cfg dist wins := by
  rw [decimateMobile, decimateMobile]
  have hkeys : (wins.map (shiftWin d)).map (fun w => w.mac) = wins.map (fun w => w.mac) := by
    rw [List.map_map]
    rfl
  rw [hkeys]
  refine List.flatMap_congr ?_
  intro m _
  exact macTrack_shift cfg dist d wins m

/-- The shift keeps a window's MAC. -/
@[simp] theorem shiftWin_mac (d : ℚ) (w : Win) : (shiftWin d w).mac = w.mac := rfl

/-- The shift keeps a window's start. -/
@[simp] theorem shiftWin_ts_start (d : ℚ) (w : Win) : (shiftWin d w).ts_start = w.ts_start := rfl

/-- The shift keeps a window's end. -/
@[simp] theorem shiftWin_ts_end (d : ℚ) (w : Win) : (shiftWin d w).ts_end = w.ts_end := rfl

/-- The shifted window's points are the shifted points. -/
@[simp] theorem shiftWin_points (d : ℚ) (w : Win) :
    (shiftWin d w).points = w.points.map (shiftRssi d) := rfl

/-- Scale a window summary's total weight (the effect of a common factor
on all RSSI weights). -/
def scaleSummary (c : ℚ) (s : WinSummary) : WinSummary :=
  { s with totW := c * s.totW }

/-- `collectE` only looks at the images of its elements. -/
theorem collectE_congr {α β ε : Type} (f g : α → Except ε β) (l : List α)
    (h : ∀ a ∈ l, f a = g a) : collectE f l = collectE g l := by
  induction l with
  | nil => rfl
  | cons a as ih =>
    rw [collectE, collectE, h a (List.mem_cons_self _ _),
      ih (fun x hx => h x (List.mem_cons_of_mem _ hx))]

/-- `collectE` over a mapped list is `collectE` of the composition. -/
theorem collectE_map_arg {α α' β ε : Type} (g : α' → α) (f : α → Except ε β)
    (l : List α') : collectE f (l.map g) = collectE (fun a => f (g a)) l := by
  induction l with
  | nil => rfl
  | cons a as ih => rw [List.map_cons, collectE, collectE, ih]

/-- Post-composing each element's computation with a pure map maps the
collected list. -/
theorem collectE_map_except {α β γ ε : Type} (f : α → Except ε β) (g : β → γ)
    (l : List α) :
    collectE (fun a => (f a).map g) l = (collectE f l).map (List.map g) := by
  induction l with
  | nil => rfl
  | cons a as ih =>
    rw [collectE, collectE, ih]
    cases f a with
    | error e => rfl
    | ok b =>
      cases collectE f as with
      | error e => rfl
      | ok bs => rfl

/-- Composition of `Except.map`s. -/
theorem except_map_map {α β γ ε : Type} (f : α → β) (g : β → γ) (e : Except ε α) :
    (e.map f).map g = e.map (fun a => g (f a)) := by
  cases e <;> rfl


/-- Sum of a scaled list of rationals. -/
theorem sum_map_scale (c : ℚ) (l : List ℚ) : (l.map (fun x => c * x)).sum = c * l.sum := by
  induction l with
  | nil => simp
  | cons a t ih => simp [ih, mul_add]

/-- Sum of a pointwise-scaled image. -/
theorem sum_map_mul_fun {α : Type} (c : ℚ) (g : α → ℚ) (l : List α) :
    (l.map (fun a => c * g a)).sum = c * (l.map g).sum := by
  induction l with
  | nil => simp
  | cons a t ih => simp [ih, mul_add]

/-- Shifting all RSSI values by `d` scales a window summary's weight by
the common factor `c` and changes nothing else. -/
theorem summarizeWin_shift (wfun : ℚ → ℚ) (d c : ℚ) (hc : c ≠ 0)
    (hw : ∀ r, wfun (r + d) = c * wfun r) (w : Win) :
    summarizeWin wfun (shiftWin d w) =
      (summarizeWin wfun w).map (scaleSummary c) := by
  have hwts : (shiftWin d w).points.map (fun p => wfun p.rssi) =
      (w.points.map (fun p => wfun p.rssi)).map (fun x => c * x) := by
    rw [shiftWin_points, List.map_map, List.map_map]
    refine List.map_congr_left ?_
    intro p _
    simp only [Function.comp]
    exact hw p.rssi
  have htot : winTotW wfun (shiftWin d w) = c * winTotW wfun w := by
    rw [winTotW, hwts, sum_map_scale]
    rfl
  rw [summarizeWin, summarizeWin, htot]
  by_cases h0 : winTotW wfun w = 0
  · rw [if_pos (by rw [h0, mul_zero]), if_pos h0]
    rfl
  · rw [if_neg (by simp [hc, h0]), if_neg h0]
    have hzip : ((shiftWin d w).points.map (fun p => wfun p.rssi)).zip
        (shiftWin d w).points =
        ((w.points.map (fun p => wfun p.rssi)).zip w.points).map
          (Prod.map (fun x => c * x) (shiftRssi d)) := by
      rw [hwts, shiftWin_points]
      exact List.zip_map (fun x : ℚ => c * x) (shiftRssi d)
        (w.points.map (fun p => wfun p.rssi)) w.points
    have hlat : (((shiftWin d w).points.map (fun p => wfun p.rssi)).zip
          (shiftWin d w).points).map (fun wp => wp.1 * wp.2.lat) =
        ((w.points.map (fun p => wfun p.rssi)).zip w.points).map
          (fun wp => c * (wp.1 * wp.2.lat)) := by
      rw [hzip, List.map_map]
      refine List.map_congr_left ?_
      intro wp _
      simp only [Function.comp, Prod.map_fst, Prod.map_snd, Prod.map]
      rw [shiftRssi_lat]
      ring
    have hlon : (((shiftWin d w).points.map (fun p => wfun p.rssi)).zip
          (shiftWin d w).points).map (fun wp => wp.1 * wp.2.lon) =
        ((w.points.map (fun p => wfun p.rssi)).zip w.points).map
          (fun wp => c * (wp.1 * wp.2.lon)) := by
      rw [hzip, List.map_map]
      refine List.map_congr_left ?_
      intro wp _
      simp only [Function.comp, Prod.map_fst, Prod.map_snd, Prod.map]
      rw [shiftRssi_lon]
      ring
    rw [hlat, hlon, sum_map_mul_fun, sum_map_mul_fun]
    simp only [Except.map, scaleSummary, shiftWin_ts_start, shiftWin_ts_end,
      shiftWin_points, List.length_map]
    rw [mul_div_mul_left _ _ hc, mul_div_mul_left _ _ hc]

/-- Scaling all weights scales the Weiszfeld denominator. -/
theorem gmDenom_scale (dist : Dist) (pts : List (ℚ × ℚ)) (ws : List ℚ) (x : ℚ × ℚ)
    (c : ℚ) :
    gmDenom dist pts (ws.map (fun v => c * v)) x = c * gmDenom dist pts ws x := by
  rw [gmDenom, gmDenom, List.zip_map_right, List.map_map]
  have h1 : ((fun pw : (ℚ × ℚ) × ℚ => pw.2 / max (dist x pw.1) qclamp) ∘
      Prod.map id (fun v => c * v)) =
      fun pw : (ℚ × ℚ) × ℚ => c * (pw.2 / max (dist x pw.1) qclamp) := by
    funext pw
    simp only [Function.comp, Prod.map, id]
    rw [mul_div_assoc]
  rw [h1, sum_map_mul_fun]

/-- Scaling all weights leaves the Weiszfeld update unchanged. -/
theorem gmNext_scale (dist : Dist) (pts : List (ℚ × ℚ)) (ws : List ℚ) (x : ℚ × ℚ)
    (c : ℚ) (hc : c ≠ 0) :
    gmNext dist pts (ws.map (fun v => c * v)) x = gmNext dist pts ws x := by
  rw [gmNext, gmNext, gmDenom_scale _ _ _ _ c, List.zip_map_right, List.map_map,
    List.map_map]
  have h1 : ((fun pw : (ℚ × ℚ) × ℚ => pw.2 / max (dist x pw.1) qclamp * pw.1.1) ∘
      Prod.map id (fun v => c * v)) =
      fun pw : (ℚ × ℚ) × ℚ => c * (pw.2 / max (dist x pw.1) qclamp * pw.1.1) := by
    funext pw
    simp only [Function.comp, Prod.map, id]
    ring
  have h2 : ((fun pw : (ℚ × ℚ) × ℚ => pw.2 / max (dist x pw.1) qclamp * pw.1.2) ∘
      Prod.map id (fun v => c * v)) =
      fun pw : (ℚ × ℚ) × ℚ => c * (pw.2 / max (dist x pw.1) qclamp * pw.1.2) := by
    funext pw
    simp only [Function.comp, Prod.map, id]
    ring
  rw [h1, h2, sum_map_mul_fun, sum_map_mul_fun, mul_div_mul_left _ _ hc,
    mul_div_mul_left _ _ hc]

/-- Scaling all weights leaves the Weiszfeld loop unchanged. -/
theorem gmLoop_scale (dist : Dist) (pts : List (ℚ × ℚ)) (ws : List ℚ) (c : ℚ)
    (hc : c ≠ 0) :
    ∀ (fuel : Nat) (x : ℚ × ℚ),
      gmLoop dist pts (ws.map (fun v => c * v)) fuel x = gmLoop dist pts ws fuel x := by
  intro fuel
  induction fuel with
  | zero => intro x; rfl
  | succ n ih =>
    intro x
    rw [gmLoop, gmLoop, gmDenom_scale _ _ _ _ c, gmNext_scale _ _ _ _ c hc]
    by_cases hd : gmDenom dist pts ws x = 0
    · rw [if_pos (by rw [hd, mul_zero]), if_pos hd]
    · rw [if_neg (by simp [hc, hd]), if_neg hd]
      by_cases hstop : dist x (gmNext dist pts ws x) < qeps
      · rw [if_pos hstop, if_pos hstop]
      · rw [if_neg hstop, if_neg hstop, ih]

/-- Scaling all weights leaves the starting centroid unchanged. -/
theorem gmStart_scale (pts : List (ℚ × ℚ)) (ws : List ℚ) (c : ℚ) (hc : c ≠ 0) :
    gmStart pts (ws.map (fun v => c * v)) = gmStart pts ws := by
  rw [gmStart, gmStart, List.zip_map_right, List.map_map, List.map_map]
  have hs : (ws.map (fun v => c * v)).sum = c * ws.sum := sum_map_scale c ws
  have h1 : ((fun pw : (ℚ × ℚ) × ℚ => pw.2 * pw.1.1) ∘ Prod.map id (fun v => c * v)) =
      fun pw : (ℚ × ℚ) × ℚ => c * (pw.2 * pw.1.1) := by
    funext pw
    simp only [Function.comp, Prod.map, id]
    ring
  have h2 : ((fun pw : (ℚ × ℚ) × ℚ => pw.2 * pw.1.2) ∘ Prod.map id (fun v => c * v)) =
      fun pw : (ℚ × ℚ) × ℚ => c * (pw.2 * pw.1.2) := by
    funext pw
    simp only [Function.comp, Prod.map, id]
    ring
  rw [hs, h1, h2, sum_map_mul_fun, sum_map_mul_fun, mul_div_mul_left _ _ hc,
    mul_div_mul_left _ _ hc]

/-- Scaling all weights leaves `geometric_median` unchanged. -/
theorem geometricMedian_scale (dist : Dist) (fuel : Nat) (pts : List (ℚ × ℚ))
    (ws : List ℚ) (c : ℚ) (hc : c ≠ 0) :
    geometricMedian dist fuel pts (ws.map (fun v => c * v)) =
      geometricMedian dist fuel pts ws := by
  rw [geometricMedian, geometricMedian, sum_map_scale]
  by_cases h0 : ws.sum = 0
  · rw [if_pos (by rw [h0, mul_zero]), if_pos h0]
  · rw [if_neg (by simp [hc, h0]), if_neg h0, gmStart_scale _ _ c hc,
      gmLoop_scale dist pts ws c hc]

/-- `aggMacRow` is `Except.map` of the row builder over the geometric
median. -/
theorem aggMacRow_eq_map (dist : Dist) (fuel : Nat) (m : String)
    (ss : List WinSummary) :
    aggMacRow dist fuel m ss =
      (geometricMedian dist fuel (ss.map (fun s => s.center))
          (ss.map (fun s => s.totW))).map
        (fun med =>
          { mac := m, lat_mean := med.1, lon_mean := med.2,
            loc_error_m :=
              (((ss.map (fun s => s.totW)).zip
                  (ss.map (fun s => dist med s.center))).map
                (fun we => we.1 * we.2)).sum / (ss.map (fun s => s.totW)).sum,
            first_seen := minListI (ss.map (fun s => s.ts0)),
            last_seen := maxListI (ss.map (fun s => s.ts1)),
            n_obs := (ss.map (fun s => s.n)).sum }) := by
  rw [aggMacRow]
  cases geometricMedian dist fuel (ss.map (fun s => s.center))
      (ss.map (fun s => s.totW)) with
  | error e => rfl
  | ok med => rfl

/-- A common scaling of the window weights leaves the per-MAC row
unchanged: the geometric median, the weighted mean error and all coverage
aggregates are invariant. -/
theorem aggMacRow_scale (dist : Dist) (fuel : Nat) (m : String)
    (ss : List WinSummary) (c : ℚ) (hc : c ≠ 0) :
    aggMacRow dist fuel m (ss.map (scaleSummary c)) = aggMacRow dist fuel m ss := by
  have hcenters : (ss.map (scaleSummary c)).map (fun s => s.center) =
      ss.map (fun s => s.center) := by
    rw [List.map_map]
    rfl
  have htots : (ss.map (scaleSummary c)).map (fun s => s.totW) =
      (ss.map (fun s => s.totW)).map (fun v => c * v) := by
    rw [List.map_map, List.map_map]
    rfl
  rw [aggMacRow_eq_map, aggMacRow_eq_map, hcenters, htots,
    geometricMedian_scale dist fuel _ _ c hc]
  cases hgm : geometricMedian dist fuel (ss.map (fun s => s.center))
      (ss.map (fun s => s.totW)) with
  | error e => rfl
  | ok med =>
    simp only [Except.map, Except.ok.injEq]
    have herrs : (ss.map (scaleSummary c)).map (fun s => dist med s.center) =
        ss.map (fun s => dist med s.center) := by
      rw [List.map_map]
      rfl
    have hts0 : (ss.map (scaleSummary c)).map (fun s => s.ts0) =
        ss.map (fun s => s.ts0) := by
      rw [List.map_map]
      rfl
    have hts1 : (ss.map (scaleSummary c)).map (fun s => s.ts1) =
        ss.map (fun s => s.ts1) := by
      rw [List.map_map]
      rfl
    have hn : (ss.map (scaleSummary c)).map (fun s => s.n) = ss.map (fun s => s.n) := by
      rw [List.map_map]
      rfl
    rw [herrs, hts0, hts1, hn]
    have hnum : (((ss.map (fun s => s.totW)).map (fun v => c * v)).zip
          (ss.map (fun s => dist med s.center))).map (fun we => we.1 * we.2) =
        ((ss.map (fun s => s.totW)).zip (ss.map (fun s => dist med s.center))).map
          (fun we => c * (we.1 * we.2)) := by
      rw [List.zip_map_left, List.map_map]
      refine List.map_congr_left ?_
      intro we _
      simp only [Function.comp, Prod.map, id]
      ring
    rw [hnum, sum_map_mul_fun, sum_map_scale, mul_div_mul_left _ _ hc]

/-- Shifting every RSSI by `d` leaves the whole static aggregation
unchanged, provided the weight map turns the shift into a common nonzero
factor. -/
theorem aggregateStatic_shift (dist : Dist) (wfun : ℚ → ℚ) (fuel : Nat)
    (d c : ℚ) (hc : c ≠ 0) (hw : ∀ r, wfun (r + d) = c * wfun r)
    (stat : List Win) :
    aggregateStatic dist wfun fuel (stat.map (shiftWin d)) =
      aggregateStatic dist wfun fuel stat := by
  rw [aggregateStatic, aggregateStatic, collectE_map_arg]
  have h1 : ∀ w ∈ stat,
      (summarizeWin wfun (shiftWin d w)).map (fun s => ((shiftWin d w).mac, s)) =
      ((summarizeWin wfun w).map (fun s => (w.mac, s))).map
        (fun p => (p.1, scaleSummary c p.2)) := by
    intro w _
    rw [summarizeWin_shift wfun d c hc hw w, except_map_map, except_map_map]
    rfl
  rw [collectE_congr _ _ stat h1, collectE_map_except]
  have hkeys : (stat.map (shiftWin d)).map (fun w => w.mac) = stat.map (fun w => w.mac) := by
    rw [List.map_map]
    rfl
  rw [hkeys]
  cases hp1 : collectE (fun w => (summarizeWin wfun w).map (fun s => (w.mac, s))) stat with
  | error e => rfl
  | ok sums =>
    simp only [Except.map]
    refine collectE_congr _ _ _ ?_
    intro m _
    have hfilter : (sums.map (fun p => (p.1, scaleSummary c p.2))).filter
        (fun s => decide (s.1 = m)) =
        (sums.filter (fun s => decide (s.1 = m))).map
          (fun p => (p.1, scaleSummary c p.2)) := by
      rw [List.filter_map]
      rfl
    rw [hfilter, List.map_map]
    have hsnd : ((sums.filter (fun s => decide (s.1 = m))).map
        ((fun s : String × WinSummary => s.2) ∘ (fun p => (p.1, scaleSummary c p.2)))) =
        ((sums.filter (fun s => decide (s.1 = m))).map (fun s => s.2)).map
          (scaleSummary c) := by
      rw [List.map_map]
      rfl
    rw [hsnd]
    exact aggMacRow_scale dist fuel m _ c hc

/-- Adding a constant offset to every observation's RSSI leaves both
pipeline outputs identical: the mobile track points never read RSSI, and
the static rows see all weights scaled by the common factor `c`, under
which centroids, the Weiszfeld median and the weighted error metric are
invariant. -/
theorem C9_rssi_offset_invariance (cfg : ClassifierConfig) (dist : Dist)
    (wfun : ℚ → ℚ) (fuel : Nat) (d c : ℚ) (hc : 0 < c)
    (hw : ∀ r : ℚ, wfun (r + d) = c * wfun r) (obs : List Obs) :
    runStatic cfg dist wfun fuel (obs.map (shiftRssi d)) =
      runStatic cfg dist wfun fuel obs ∧
    runMobile cfg dist (obs.map (shiftRssi d)) = runMobile cfg dist obs := by
  have hc' : c ≠ 0 := ne_of_gt hc
  constructor
  · rw [runStatic, runStatic, windowize_shift, splitStationary_shift]
    exact aggregateStatic_shift dist wfun fuel d c hc' hw _
  · rw [runMobile, runMobile, windowize_shift, splitStationary_shift]
    exact decimateMobile_shift cfg dist d _

/-- C9 witness: the invariance applied with a constant weight map
(`c = 1`) and offset 5 to a concrete two-observation batch. -/
theorem C9_rssi_offset_invariance_witness :
    runStatic ClassifierConfig.driving (fun _ _ => 0) (fun _ => 1) 3
        ([⟨"AA", 0, 0, 0, -50⟩, ⟨"AA", 40, 0, 0, -55⟩].map (shiftRssi 5)) =
      runStatic ClassifierConfig.driving (fun _ _ => 0) (fun _ => 1) 3
        [⟨"AA", 0, 0, 0, -50⟩, ⟨"AA", 40, 0, 0, -55⟩] ∧
    runMobile ClassifierConfig.driving (fun _ _ => 0)
        ([⟨"AA", 0, 0, 0, -50⟩, ⟨"AA", 40, 0, 0, -55⟩].map (shiftRssi 5)) =
      runMobile ClassifierConfig.driving (fun _ _ => 0)
        [⟨"AA", 0, 0, 0, -50⟩, ⟨"AA", 40, 0, 0, -55⟩] :=
  C9_rssi_offset_invariance ClassifierConfig.driving (fun _ _ => 0) (fun _ => 1) 3 5 1
    (by norm_num) (fun r => by norm_num)
    [⟨"AA", 0, 0, 0, -50⟩, ⟨"AA", 40, 0, 0, -55⟩]

end WF
